import Mathlib

/-!
# Huffman file compression (`src/util.h`)

A shallow embedding of the Huffman compressor of `util.h` and the properties
its specification states about it.

Conventions of the embedding.

* A C++ `char` is given by its byte value (`CChar = Fin 256`).  Whether `char`
  is signed is implementation-defined, so the conversion `char → int` takes the
  signedness as a parameter `sgn`; the theorems hold for both choices.
* A C++ `int` is a mathematical integer.  The embedding describes the
  executions in which every count and every length stays below `2^31`: there
  no addition overflows (signed overflow is undefined behaviour) and the
  conversion of `str.length()` to `int` keeps the value.
* A `HuffmanNode *` is a value of the inductive type `HuffmanNode`: either the
  null pointer or a node with its four fields.  The trees of `util.h` are never
  shared, so a pointer is identified with the tree it points to.
* Dereferencing a null pointer and calling `top()` on an empty queue are
  undefined behaviour; the functions that can do so return `Option` and give
  `none` there.
* A `std::string` of binary digits is a `List Char`; a bit stream is the list of
  the values that successive `readBit()` / `writeBit()` calls transfer.

Layout.  The definitions come first: the collaborators of `util.h`, the queue of
the standard library, the functions of `util.h` in the order of the source (each
names the lines it embeds), then the notions the specification uses.  The lemmas
follow, grouped by subject.  The last section states the properties C1 to C20
of the specification, in this order.

Every function of `util.h` is embedded except `freeTree`, which only releases
memory, and `compress`, which calls `buildFrequencyMap`, `buildEncodingTree`,
`buildEncodingMap` and `encode` in this order on the content of one file.
-/

namespace Util

/-! ## Constants and collaborators that `util.h` takes from other headers -/

/-- Modelled from the spec: `PSEUDO_EOF` is declared in `bitstream.h`, which is
not part of the sources; the specification describes it as "a value outside the
byte range, e.g. 256". -/
def PSEUDO_EOF : Int := 256

/-- Modelled from the spec: `NOT_A_CHAR` is declared in `bitstream.h`, which is
not part of the sources; the specification describes it as the distinguished
marker of internal nodes, different from every symbol. -/
def NOT_A_CHAR : Int := 257

/-- A C++ `char`, given by its byte value. -/
abbrev CChar := Fin 256

/-- The integral conversion `char → int`; `sgn` tells whether `char` is a signed
type (bytes 128..255 are then the negative values -128..-1). -/
def charToInt (sgn : Bool) (c : CChar) : Int :=
  if sgn && decide (128 ≤ c.val) then (c.val : Int) - 256 else (c.val : Int)

/-- The conversion `int → char` (reduction modulo 256), as in `str += character`. -/
def intToChar (k : Int) : CChar :=
  ⟨(k % 256).toNat, by omega⟩

/-- Modelled from the spec: the associative map `hashmap` of `hashmap.h` (not
part of the sources), "symbol → integer count".  The entries are kept in the
order in which `keys()` lists them. -/
abbrev hashmapF := List (Int × Int)

/-- Modelled from the spec: `hashmap::containsKey`. -/
def hashmapF.containsKey (m : hashmapF) (key : Int) : Bool :=
  (List.lookup key m).isSome

/-- Modelled from the spec: `hashmap::get` (only called on keys that are present). -/
def hashmapF.get (m : hashmapF) (key : Int) : Int :=
  (List.lookup key m).getD 0

/-- Modelled from the spec: `hashmap::put`, which overwrites the value of a key
that is present and adds an entry for a key that is not. -/
def hashmapF.put : hashmapF → Int → Int → hashmapF
  | [], key, value => [(key, value)]
  | (k, v) :: rest, key, value =>
    if k = key then (key, value) :: rest else (k, v) :: hashmapF.put rest key value

/-- Modelled from the spec: `hashmap::keys`. -/
def hashmapF.keys (m : hashmapF) : List Int :=
  m.map Prod.fst

/-- Modelled from the spec: the bit-oriented input stream `ifbitstream` of
`bitstream.h` (not part of the sources), "read individual bits, end-of-stream
detection".  The stream is the list of the values its remaining `readBit()`
calls return, and `eof()` holds exactly when none remains. -/
abbrev ifbitstream := List Int

/-- Modelled from the spec: the bit-oriented output stream `ofbitstream` of
`bitstream.h` (not part of the sources), "write individual bits".  The stream is
the list of the bits passed to `writeBit()`, in order. -/
abbrev ofbitstream := List Int

/-- The code table `hashmapE = unordered_map<int, string>` (line 13), as an
association list. -/
abbrev hashmapE := List (Int × List Char)

/-- The assignment `encodingMap[key] = str` of `std::unordered_map`. -/
def hashmapE.assign : hashmapE → Int → List Char → hashmapE
  | [], key, str => [(key, str)]
  | (k, s) :: rest, key, str =>
    if k = key then (key, str) :: rest else (k, s) :: hashmapE.assign rest key str

/-- The read access `encodingMap[key]` of `std::unordered_map`: the stored string,
or the empty string for a key without entry (the container then inserts that
empty string, so later reads of the key return it as well). -/
def hashmapE.subscript (m : hashmapE) (key : Int) : List Char :=
  (List.lookup key m).getD []

/-! ## The data model -/

/-- A `HuffmanNode *` (lines 15-21): the null pointer, or a node with the fields
`character`, `count`, `zero` and `one`. -/
inductive HuffmanNode where
  | null : HuffmanNode
  | node (character : Int) (count : Int) (zero : HuffmanNode) (one : HuffmanNode) : HuffmanNode
  deriving DecidableEq, Repr

/-- The field `count` (the queue never holds a null pointer). -/
def HuffmanNode.count : HuffmanNode → Int
  | .null => 0
  | .node _ c _ _ => c

/-- The comparator `compare` (lines 23-30): `lhs->count > rhs->count`. -/
def compare (lhs rhs : HuffmanNode) : Bool :=
  decide (lhs.count > rhs.count)

/-! ## `std::priority_queue<HuffmanNode *, vector<HuffmanNode *>, compare>`

The C++ standard defines `push` as `push_back` followed by `std::push_heap`, and
`pop` as `std::pop_heap` followed by `pop_back`, on the underlying vector; `top`
is the front of the vector.  The queue is that vector.  The two sift loops
follow the GNU implementation of `push_heap` and `pop_heap` (`__push_heap`,
`__adjust_heap`), written with exchanges of two slots where the library moves a
hole.  Which of several nodes of equal count comes out first depends on these
loops; the properties below that do not mention a concrete tree hold whatever
that choice is. -/

/-- Exchange of the slots `i` and `j` of a vector. -/
def swapAt (v : List HuffmanNode) (i j : Nat) : List HuffmanNode :=
  match v[i]?, v[j]? with
  | some x, some y => (v.set i y).set j x
  | _, _ => v

/-- The loop of `std::push_heap`: the value in slot `i` moves up while
`compare (parent, value)` holds. -/
def siftUp : Nat → List HuffmanNode → Nat → List HuffmanNode
  | 0, v, _ => v
  | fuel + 1, v, i =>
    if 0 < i then
      match v[(i - 1) / 2]?, v[i]? with
      | some p, some x =>
        if compare p x then siftUp fuel (swapAt v i ((i - 1) / 2)) ((i - 1) / 2) else v
      | _, _ => v
    else v

/-- The first loop of `std::__adjust_heap`: the value in slot `i` moves down to
a slot without two children, each time to the child the comparator prefers.
Returns the vector and the slot reached. -/
def siftDown : Nat → List HuffmanNode → Nat → List HuffmanNode × Nat
  | 0, v, i => (v, i)
  | fuel + 1, v, i =>
    if i < (v.length - 1) / 2 then
      match v[2 * (i + 1)]?, v[2 * (i + 1) - 1]? with
      | some r, some l =>
        if compare r l then siftDown fuel (swapAt v i (2 * (i + 1) - 1)) (2 * (i + 1) - 1)
        else siftDown fuel (swapAt v i (2 * (i + 1))) (2 * (i + 1))
      | _, _ => (v, i)
    else (v, i)

/-- The function `std::__adjust_heap` on a non-empty vector whose slot 0 holds
the value to place: down to the bottom, one more step when the slot reached has
a single child, then up again as in `push_heap`. -/
def adjust_heap (v : List HuffmanNode) : List HuffmanNode :=
  let r := siftDown v.length v 0
  if v.length % 2 = 0 ∧ r.2 = (v.length - 2) / 2 then
    siftUp v.length (swapAt r.1 r.2 (2 * (r.2 + 1) - 1)) (2 * (r.2 + 1) - 1)
  else
    siftUp v.length r.1 r.2

/-- The method `priority_queue::push`: `push_back`, then `push_heap`. -/
def pqPush (pq : List HuffmanNode) (x : HuffmanNode) : List HuffmanNode :=
  siftUp (pq.length + 1) (pq ++ [x]) pq.length

/-- The method `priority_queue::top`: the front of the vector. -/
def pqTop (pq : List HuffmanNode) : Option HuffmanNode :=
  pq.head?

/-- The method `priority_queue::pop`: `pop_heap`, then `pop_back`.  With more
than one element the last value goes to slot 0 and is placed by `adjust_heap`. -/
def pqPop : List HuffmanNode → List HuffmanNode
  | [] => []
  | [_] => []
  | _ :: y :: rest => adjust_heap ((y :: rest).getLast (by simp) :: (y :: rest).dropLast)

/-! ## The functions of `util.h` -/

/-- The function `frequencyMapHelper` (lines 46-57): a first occurrence enters
the table with count 1, a later one adds 1 to the stored count.  The `char` is
converted to the `int` key of the table. -/
def frequencyMapHelper (sgn : Bool) (hmap : hashmapF) (ch : CChar) : hashmapF :=
  if !(hashmapF.containsKey hmap (charToInt sgn ch)) then
    hashmapF.put hmap (charToInt sgn ch) 1
  else
    hashmapF.put hmap (charToInt sgn ch) (hashmapF.get hmap (charToInt sgn ch) + 1)

/-- The reading loop of `buildFrequencyMap` (lines 69-72 and 76-79, the same in
both branches of `isFile`): `frequencyMapHelper` on every character of the
source, in order. -/
def countLoop (sgn : Bool) : List CChar → hashmapF → hashmapF
  | [], map => map
  | c :: rest, map => countLoop sgn rest (frequencyMapHelper sgn map c)

/-- The function `buildFrequencyMap` (lines 63-82); `source` is the content of
the file, or the string itself when `isFile` is false. -/
def buildFrequencyMap (sgn : Bool) (source : List CChar) (map : hashmapF) : hashmapF :=
  hashmapF.put (countLoop sgn source map) PSEUDO_EOF 1

/-- The first loop of `buildEncodingTree` (lines 90-99): one childless node per
key, pushed in the order of `keys()`. -/
def pushLeaves (map : hashmapF) : List Int → List HuffmanNode → List HuffmanNode
  | [], pq => pq
  | key :: rest, pq =>
    pushLeaves map rest (pqPush pq (.node key (hashmapF.get map key) .null .null))

/-- The second loop of `buildEncodingTree` (lines 100-116): while the queue holds
more than one node, the two nodes on top are removed and their combination is
pushed.  Every round shortens the queue by one, so `fuel = pq.size()` rounds
always suffice (`mergeLoop_spec` proves that the queue returned holds one node). -/
def mergeLoop : Nat → List HuffmanNode → Option (List HuffmanNode)
  | 0, pq => some pq
  | fuel + 1, pq =>
    if 1 < pq.length then
      match pqTop pq with
      | none => none
      | some leftChild =>
        match pqTop (pqPop pq) with
        | none => none
        | some rightChild =>
          mergeLoop fuel
            (pqPush (pqPop (pqPop pq))
              (.node NOT_A_CHAR (leftChild.count + rightChild.count) leftChild rightChild))
    else some pq

/-- The function `buildEncodingTree` (lines 87-120); `none` stands for `pq.top()`
on an empty queue. -/
def buildEncodingTree (map : hashmapF) : Option HuffmanNode :=
  let pq := pushLeaves map (hashmapF.keys map) []
  match mergeLoop pq.length pq with
  | none => none
  | some pq1 => pqTop pq1

/-- The function `_buildEncodingMap` (lines 125-141; its argument `prev` is never
read). -/
def _buildEncodingMap : HuffmanNode → hashmapE → List Char → hashmapE
  | .null, encodingMap, _ => encodingMap
  | .node character _ zero one, encodingMap, str =>
    if character ≠ NOT_A_CHAR then
      hashmapE.assign encodingMap character str
    else
      let str1 := str ++ ['0']
      let encodingMap1 := _buildEncodingMap zero encodingMap str1
      let str2 := str1.dropLast
      let str3 := str2 ++ ['1']
      _buildEncodingMap one encodingMap1 str3

/-- The function `buildEncodingMap` (lines 146-152). -/
def buildEncodingMap (tree : HuffmanNode) : hashmapE :=
  _buildEncodingMap tree [] []

/-- The first loop of `encode` (lines 166-169): the code of every character is
appended to `str`. -/
def encodeLoop (sgn : Bool) (encodingMap : hashmapE) : List CChar → List Char → List Char
  | [], str => str
  | c :: rest, str =>
    encodeLoop sgn encodingMap rest (str ++ hashmapE.subscript encodingMap (charToInt sgn c))

/-- The second loop of `encode` (lines 174-180): `writeBit(1)` for a `'1'`,
`writeBit(0)` for a `'0'`, nothing for any other character.  Returns the bits
written, in order. -/
def writeBits : List Char → ofbitstream
  | [] => []
  | c :: rest =>
    if c = '1' then 1 :: writeBits rest
    else if c = '0' then 0 :: writeBits rest
    else writeBits rest

/-- What `encode` leaves behind: the returned string, the value stored in `size`
and the bits written to `output`. -/
structure Encoded where
  str : List Char
  size : Int
  output : ofbitstream
  deriving DecidableEq, Repr

/-- The function `encode` (lines 161-183). -/
def encode (sgn : Bool) (input : List CChar) (encodingMap : hashmapE) (makeFile : Bool) :
    Encoded :=
  let str := encodeLoop sgn encodingMap input []
  let str := str ++ hashmapE.subscript encodingMap PSEUDO_EOF
  let size : Int := str.length
  if makeFile then ⟨str, size, writeBits str⟩ else ⟨str, size, []⟩

/-- What `decode` leaves behind: the returned string and the characters put on
`output`. -/
structure Decoded where
  str : List CChar
  output : List CChar
  deriving DecidableEq, Repr

/-- The loop of `decode` (lines 194-215).  `input` lists the values the remaining
`readBit()` calls return (`eof()` holds when it is empty), `encodingTree` is the
current node, `str` and `output` what has been produced so far.  `none` stands
for the dereference of a null pointer. -/
def decodeLoop (root : HuffmanNode) :
    ifbitstream → HuffmanNode → List CChar → List CChar → Option Decoded
  | [], _, str, output => some ⟨str, output⟩
  | bit :: rest, encodingTree, str, output =>
    match encodingTree with
    | .null => none
    | .node character count zero one =>
      let leaf := decide (character ≠ NOT_A_CHAR)
      let str1 := if leaf then str ++ [intToChar character] else str
      let output1 := if leaf then output ++ [intToChar character] else output
      let tree1 := if leaf then root else .node character count zero one
      match tree1 with
      | .null => none
      | .node character1 count1 zero1 one1 =>
        let tree2 :=
          if bit = 1 then one1
          else if bit = 0 then zero1
          else .node character1 count1 zero1 one1
        match tree2 with
        | .null => none
        | .node character2 _ _ _ =>
          if character2 = PSEUDO_EOF then some ⟨str1, output1⟩
          else decodeLoop root rest tree2 str1 output1

/-- The function `decode` (lines 190-217). -/
def decode (input : ifbitstream) (encodingTree : HuffmanNode) : Option Decoded :=
  decodeLoop encodingTree input encodingTree [] []

/-- The call `s.find(pattern)` of `std::string`: the position of the first
occurrence of `pattern` in `s`, or `none` for `npos` when there is none. -/
def find : List Char → List Char → Option Nat
  | [], pattern => if pattern.isPrefixOf [] then some 0 else none
  | c :: rest, pattern =>
    if pattern.isPrefixOf (c :: rest) then some 0 else (find rest pattern).map (· + 1)

/-- The call `s.erase(index)` of `std::string`: everything from `index` on is
removed.  `none` stands for the exception `std::out_of_range`, thrown when
`index` is larger than the size, as `npos` always is. -/
def erase (s : List Char) (index : Option Nat) : Option (List Char) :=
  match index with
  | none => none
  | some i => if i ≤ s.length then some (s.take i) else none

/-- What a call of `decompress` does.  `thrown`: `filename.erase` threw
`std::out_of_range`, no output file was opened.  `opened newFile result`: the
output file `newFile` was opened and `decode` ran, with `result` what it leaves
behind (`none` for undefined behaviour). -/
inductive Decompressed where
  | thrown : Decompressed
  | opened (newFile : List Char) (result : Option Decoded) : Decompressed
  deriving DecidableEq, Repr

/-- The function `decompress` (lines 254-268).  `frequencyMap` is the table
`input >> frequencyMap` reads from the header of the file `filename`, `input`
the bits that follow the header. -/
def decompress (filename : List Char) (frequencyMap : hashmapF) (input : ifbitstream) :
    Decompressed :=
  let txthuf := find filename ['.', 't', 'x', 't', '.', 'h', 'u', 'f']
  match erase filename txthuf with
  | none => .thrown
  | some filename1 =>
    let newFile := filename1 ++ ['_', 'u', 'n', 'c', '.', 't', 'x', 't']
    match buildEncodingTree frequencyMap with
    | none => .opened newFile none
    | some root => .opened newFile (decode input root)

/-! ## The notions the specification uses -/

/-- The leaves of a tree from left to right, each with its character and count.
A node counts as a leaf when its character is not `NOT_A_CHAR`, which is the
test `_buildEncodingMap` and `decode` apply. -/
def leaves : HuffmanNode → List (Int × Int)
  | .null => []
  | .node character count zero one =>
    if character ≠ NOT_A_CHAR then [(character, count)] else leaves zero ++ leaves one

/-- A full binary tree: every node marked `NOT_A_CHAR` has exactly two children
(each again such a tree), every other node has none. -/
def FullTree : HuffmanNode → Prop
  | .null => False
  | .node character _ zero one =>
    if character = NOT_A_CHAR then
      zero ≠ .null ∧ one ≠ .null ∧ FullTree zero ∧ FullTree one
    else zero = .null ∧ one = .null

instance FullTree.decidable : (t : HuffmanNode) → Decidable (FullTree t)
  | .null => isFalse (fun h => h)
  | .node character _ zero one =>
    have := FullTree.decidable zero
    have := FullTree.decidable one
    inferInstanceAs (Decidable (if character = NOT_A_CHAR then
      zero ≠ .null ∧ one ≠ .null ∧ FullTree zero ∧ FullTree one
    else zero = .null ∧ one = .null))

/-- The weight invariant: at every node that is marked `NOT_A_CHAR` or has a
child, the count is the sum of the counts of the two children. -/
def WeightInvariant : HuffmanNode → Prop
  | .null => True
  | .node character count zero one =>
    ((character = NOT_A_CHAR ∨ zero ≠ .null ∨ one ≠ .null) → count = zero.count + one.count)
      ∧ WeightInvariant zero ∧ WeightInvariant one

instance WeightInvariant.decidable : (t : HuffmanNode) → Decidable (WeightInvariant t)
  | .null => isTrue trivial
  | .node character count zero one =>
    have := WeightInvariant.decidable zero
    have := WeightInvariant.decidable one
    inferInstanceAs (Decidable
      (((character = NOT_A_CHAR ∨ zero ≠ .null ∨ one ≠ .null) → count = zero.count + one.count)
        ∧ WeightInvariant zero ∧ WeightInvariant one))

/-- The sum of all counts of a frequency table. -/
def totalCount (map : hashmapF) : Int :=
  (map.map Prod.snd).sum

/-- A well-formed frequency table: no key twice, and no key equal to the marker
`NOT_A_CHAR`.  A `hashmap` holds every key once, which the list has to be told;
and the keys of a frequency table are symbols, byte values or `PSEUDO_EOF`,
never the marker of the internal nodes.  Nothing is asked of the counts, and
the negative keys of a signed `char` are allowed. -/
def ValidTable (map : hashmapF) : Prop :=
  (hashmapF.keys map).Nodup ∧ NOT_A_CHAR ∉ hashmapF.keys map

instance (map : hashmapF) : Decidable (ValidTable map) :=
  inferInstanceAs (Decidable (_ ∧ _))

/-- What the construction keeps true of every tree it holds: the shape of a full
binary tree together with the weight equation at every internal node. -/
def Built : HuffmanNode → Prop
  | .null => False
  | .node character count zero one =>
    if character = NOT_A_CHAR then
      zero ≠ .null ∧ one ≠ .null ∧ Built zero ∧ Built one ∧ count = zero.count + one.count
    else zero = .null ∧ one = .null

instance Built.decidable : (t : HuffmanNode) → Decidable (Built t)
  | .null => isFalse (fun h => h)
  | .node character count zero one =>
    have := Built.decidable zero
    have := Built.decidable one
    inferInstanceAs (Decidable (if character = NOT_A_CHAR then
      zero ≠ .null ∧ one ≠ .null ∧ Built zero ∧ Built one ∧ count = zero.count + one.count
    else zero = .null ∧ one = .null))

/-- The node reached from a node along a path of binary digits: `'0'` is a step
to the zero child, `'1'` a step to the one child. -/
def follow : HuffmanNode → List Char → HuffmanNode
  | t, [] => t
  | .null, _ :: _ => .null
  | .node _ _ zero one, c :: rest =>
    if c = '0' then follow zero rest else if c = '1' then follow one rest else .null

/-- The leaves of a tree from left to right, each with its character and the path
that leads to it, written after `str`. -/
def codes : HuffmanNode → List Char → List (Int × List Char)
  | .null, _ => []
  | .node character _ zero one, str =>
    if character ≠ NOT_A_CHAR then [(character, str)]
    else codes zero (str ++ ['0']) ++ codes one (str ++ ['1'])

/-- The safety of the moves of `decode`, step by step along its loop: the node
dereferenced is never null, and whenever the loop moves to the zero or the one
child (the bit read is 0 or 1), the node it moves from is marked `NOT_A_CHAR`
and has both children.  `encodingTree` is the current node on entry of the
iteration, as in `decodeLoop`. -/
def MovesFromInternal (root : HuffmanNode) : ifbitstream → HuffmanNode → Prop
  | [], _ => True
  | bit :: rest, encodingTree =>
    match encodingTree with
    | .null => False
    | .node character count zero one =>
      match (if character ≠ NOT_A_CHAR then root else .node character count zero one) with
      | .null => False
      | .node character1 count1 zero1 one1 =>
        ((bit = 1 ∨ bit = 0) → character1 = NOT_A_CHAR ∧ zero1 ≠ .null ∧ one1 ≠ .null) ∧
        match (if bit = 1 then one1 else if bit = 0 then zero1
            else .node character1 count1 zero1 one1) with
        | .null => False
        | .node character2 count2 zero2 one2 =>
          character2 = PSEUDO_EOF ∨
            MovesFromInternal root rest (.node character2 count2 zero2 one2)

/-- The count of the node in slot `i` of the vector of the queue (0 outside the
vector). -/
def keyAt (v : List HuffmanNode) (i : Nat) : Int :=
  match v[i]? with
  | some x => x.count
  | none => 0

/-- The heap order `push_heap` and `pop_heap` maintain with the comparator
`compare`: no slot holds a smaller count than its parent slot `(i - 1) / 2`. -/
def IsHeap (v : List HuffmanNode) : Prop :=
  ∀ i, 0 < i → i < v.length → keyAt v ((i - 1) / 2) ≤ keyAt v i

/-- The merge order: at every node marked `NOT_A_CHAR` the count of the zero
child is at most the count of the one child. -/
def MergeOrdered : HuffmanNode → Prop
  | .null => True
  | .node character _ zero one =>
    (character = NOT_A_CHAR → zero.count ≤ one.count) ∧ MergeOrdered zero ∧ MergeOrdered one

instance MergeOrdered.decidable : (t : HuffmanNode) → Decidable (MergeOrdered t)
  | .null => isTrue trivial
  | .node character _ zero one =>
    have := MergeOrdered.decidable zero
    have := MergeOrdered.decidable one
    inferInstanceAs (Decidable
      ((character = NOT_A_CHAR → zero.count ≤ one.count) ∧ MergeOrdered zero ∧ MergeOrdered one))

/-- The heap order with the slot `i` possibly below its right place: every other
slot respects its parent, and the children of `i` respect the parent of `i`. -/
def HeapUp (v : List HuffmanNode) (i : Nat) : Prop :=
  (∀ j, 0 < j → j < v.length → j ≠ i → keyAt v ((j - 1) / 2) ≤ keyAt v j) ∧
  (∀ j, 0 < j → j < v.length → (j - 1) / 2 = i → 0 < i →
    keyAt v ((i - 1) / 2) ≤ keyAt v j)

/-- The heap order with a hole at slot `i`: the slots other than `i` respect
their parents other than `i`, and the children of `i` respect the parent of
`i`.  Nothing is said about the value in slot `i` itself. -/
def HeapHole (v : List HuffmanNode) (i : Nat) : Prop :=
  (∀ j, 0 < j → j < v.length → j ≠ i → (j - 1) / 2 ≠ i →
    keyAt v ((j - 1) / 2) ≤ keyAt v j) ∧
  (∀ j, 0 < j → j < v.length → (j - 1) / 2 = i → 0 < i →
    keyAt v ((i - 1) / 2) ≤ keyAt v j)

/-- The leaves of a tree from left to right, each as the pair of its weight
`w character` and its depth below a root at depth `d`: the depth of a leaf is
the length of its code. -/
def profile (w : Int → Int) : HuffmanNode → Nat → List (Int × Nat)
  | .null, _ => []
  | .node character _ zero one, d =>
    if character ≠ NOT_A_CHAR then [(w character, d)]
    else profile w zero (d + 1) ++ profile w one (d + 1)

/-- The cost of a list of weighted depths: the sum of weight * depth. -/
def pcost (p : List (Int × Nat)) : Int :=
  (p.map (fun e => e.1 * (e.2 : Int))).sum

/-- The lists of leaf depths of the full binary trees whose root is at depth
`d`: a single leaf at depth `d`, or the depths of two such trees one level
deeper, side by side. -/
inductive IsProfile : Nat → List Nat → Prop where
  | leaf (d : Nat) : IsProfile d [d]
  | node (d : Nat) (l r : List Nat) :
      IsProfile (d + 1) l → IsProfile (d + 1) r → IsProfile d (l ++ r)

/-- The sum of the counts of the nodes marked `NOT_A_CHAR`: what the merges that
built the tree have added up. -/
def icost : HuffmanNode → Int
  | .null => 0
  | .node character count zero one =>
    if character ≠ NOT_A_CHAR then 0 else count + icost zero + icost one

/-- The total cost of a code table for a frequency table: the sum over the keys
of count(key) * length(code(key)). -/
def totalCost (map : hashmapF) (encodingMap : hashmapE) : Int :=
  ((hashmapF.keys map).map (fun k =>
    hashmapF.get map k * ((hashmapE.subscript encodingMap k).length : Int))).sum

/-- A prefix code, as the list of its entries (weight, code): the code of no
entry is a prefix of the code of another entry. -/
def PrefixFree (l : List (Int × List Char)) : Prop :=
  l.Pairwise (fun a b => ¬ a.2 <+: b.2 ∧ ¬ b.2 <+: a.2)

/-- An entry (weight, code) without the first digit of its code. -/
def stripHead (e : Int × List Char) : Int × List Char :=
  (e.1, e.2.tail)

/-! ## The queue keeps its elements -/

theorem swapAt_perm (v : List HuffmanNode) (i j : Nat) : (swapAt v i j).Perm v := by
  unfold swapAt
  split
  · rename_i x y hx hy
    obtain ⟨hi, hxi⟩ := List.getElem?_eq_some.mp hx
    obtain ⟨hj, hyj⟩ := List.getElem?_eq_some.mp hy
    rw [List.perm_iff_count]
    intro a
    have hj2 : j < (v.set i y).length := by simpa using hj
    rw [List.count_set _ _ _ _ hj2, List.count_set _ _ _ _ hi]
    have hget : (v.set i y)[j] = y := by
      rw [List.getElem_set]
      split
      · rfl
      · exact hyj
    rw [hget, hxi]
    have hle : (if (x == a) = true then 1 else 0) ≤ List.count a v := by
      split
      · rename_i hxa
        have hmem : a ∈ v := by
          have : x = a := by simpa using hxa
          rw [← this, ← hxi]
          exact List.getElem_mem hi
        exact List.count_pos_iff.mpr hmem
      · exact Nat.zero_le _
    omega
  · exact List.Perm.refl _

theorem siftUp_perm (fuel : Nat) : ∀ (v : List HuffmanNode) (i : Nat), (siftUp fuel v i).Perm v := by
  induction fuel with
  | zero => intro v i; exact List.Perm.refl _
  | succ n ih =>
    intro v i
    unfold siftUp
    split
    · split
      · split
        · exact (ih _ _).trans (swapAt_perm _ _ _)
        · exact List.Perm.refl _
      · exact List.Perm.refl _
    · exact List.Perm.refl _

theorem siftDown_perm (fuel : Nat) :
    ∀ (v : List HuffmanNode) (i : Nat), (siftDown fuel v i).1.Perm v := by
  induction fuel with
  | zero => intro v i; exact List.Perm.refl _
  | succ n ih =>
    intro v i
    unfold siftDown
    split
    · split
      · split
        · exact (ih _ _).trans (swapAt_perm _ _ _)
        · exact (ih _ _).trans (swapAt_perm _ _ _)
      · exact List.Perm.refl _
    · exact List.Perm.refl _

theorem adjust_heap_perm (v : List HuffmanNode) : (adjust_heap v).Perm v := by
  unfold adjust_heap
  simp only
  split
  · exact ((siftUp_perm _ _ _).trans (swapAt_perm _ _ _)).trans (siftDown_perm _ _ _)
  · exact (siftUp_perm _ _ _).trans (siftDown_perm _ _ _)

theorem pqPush_perm (pq : List HuffmanNode) (x : HuffmanNode) : (pqPush pq x).Perm (x :: pq) := by
  unfold pqPush
  exact (siftUp_perm _ _ _).trans (List.perm_append_singleton x pq)

theorem pqPop_perm (a : HuffmanNode) (rest : List HuffmanNode) :
    (pqPop (a :: rest)).Perm rest := by
  cases rest with
  | nil => exact List.Perm.refl _
  | cons y rest =>
    unfold pqPop
    refine (adjust_heap_perm _).trans ?_
    have h := List.dropLast_append_getLast (l := y :: rest) (by simp)
    have h2 : ((y :: rest).getLast (by simp) :: (y :: rest).dropLast).Perm
        ((y :: rest).dropLast ++ [(y :: rest).getLast (by simp)]) :=
      (List.perm_append_singleton _ _).symm
    rw [h] at h2
    exact h2

/-! ## The tree construction -/

theorem Built.ne_null {t : HuffmanNode} (h : Built t) : t ≠ .null := by
  intro h0
  subst h0
  exact h

theorem Built.fullTree : ∀ {t : HuffmanNode}, Built t → FullTree t
  | .null, h => h
  | .node character count zero one, h => by
    unfold Built at h
    unfold FullTree
    split
    · rename_i hc
      rw [if_pos hc] at h
      exact ⟨h.1, h.2.1, Built.fullTree h.2.2.1, Built.fullTree h.2.2.2.1⟩
    · rename_i hc
      rw [if_neg hc] at h
      exact h

theorem Built.weightInvariant : ∀ {t : HuffmanNode}, Built t → WeightInvariant t
  | .null, h => h.elim
  | .node character count zero one, h => by
    unfold Built at h
    unfold WeightInvariant
    by_cases hc : character = NOT_A_CHAR
    · rw [if_pos hc] at h
      exact ⟨fun _ => h.2.2.2.2, Built.weightInvariant h.2.2.1, Built.weightInvariant h.2.2.2.1⟩
    · rw [if_neg hc] at h
      obtain ⟨hz, ho⟩ := h
      subst hz
      subst ho
      refine ⟨?_, trivial, trivial⟩
      intro h3
      rcases h3 with h3 | h3 | h3
      · exact (hc h3).elim
      · exact (h3 rfl).elim
      · exact (h3 rfl).elim

theorem Built.count_eq : ∀ {t : HuffmanNode}, Built t → t.count = totalCount (leaves t)
  | .null, h => h.elim
  | .node character count zero one, h => by
    unfold Built at h
    unfold leaves
    by_cases hc : character = NOT_A_CHAR
    · rw [if_pos hc] at h
      rw [if_neg (not_not.mpr hc)]
      have hz := Built.count_eq h.2.2.1
      have ho := Built.count_eq h.2.2.2.1
      simp only [totalCount, List.map_append, List.sum_append] at *
      rw [← hz, ← ho]
      exact h.2.2.2.2
    · rw [if_pos hc]
      simp [totalCount, HuffmanNode.count]

theorem pushLeaves_perm (map : hashmapF) :
    ∀ (keys : List Int) (pq : List HuffmanNode),
      (pushLeaves map keys pq).Perm
        (keys.map (fun key => HuffmanNode.node key (hashmapF.get map key) .null .null) ++ pq) := by
  intro keys
  induction keys with
  | nil => intro pq; exact List.Perm.refl _
  | cons k rest ih =>
    intro pq
    unfold pushLeaves
    refine (ih _).trans ?_
    refine ((pqPush_perm pq _).append_left _).trans ?_
    simp only [List.map_cons, List.cons_append]
    exact List.perm_middle

theorem mergeLoop_spec (fuel : Nat) :
    ∀ (pq : List HuffmanNode), pq ≠ [] → pq.length ≤ fuel + 1 → (∀ t ∈ pq, Built t) →
      ∃ t, mergeLoop fuel pq = some [t] ∧ Built t ∧ (leaves t).Perm (pq.flatMap leaves) := by
  induction fuel with
  | zero =>
    intro pq hne hlen hall
    match pq, hne, hlen with
    | [t], _, _ =>
      exact ⟨t, rfl, hall t (List.mem_singleton.mpr rfl), by simp⟩
  | succ n ih =>
    intro pq hne hlen hall
    unfold mergeLoop
    split
    · rename_i hlong
      match pq, hlong with
      | a :: rest, hlong =>
        have hrest : rest ≠ [] := by
          intro h0; subst h0; simp at hlong
        have hp1 := pqPop_perm a rest
        generalize hq1 : pqPop (a :: rest) = p1 at hp1
        match p1, hp1 with
        | [], hp1 => exact (hrest hp1.symm.eq_nil).elim
        | b :: r1, hp1 =>
          have hp2 := pqPop_perm b r1
          generalize hq2 : pqPop (b :: r1) = p2 at hp2
          simp only [pqTop, List.head?_cons]
          have ha : Built a := hall a (List.mem_cons_self _ _)
          have hsub1 : ∀ t ∈ b :: r1, Built t := fun t ht =>
            hall t (List.mem_cons_of_mem _ (hp1.subset ht))
          have hb : Built b := hsub1 b (List.mem_cons_self _ _)
          have hpush := pqPush_perm p2 (.node NOT_A_CHAR (a.count + b.count) a b)
          generalize hq3 : pqPush p2 (.node NOT_A_CHAR (a.count + b.count) a b) = q3 at hpush
          have hq3ne : q3 ≠ [] := by
            intro h0; subst h0; exact (List.cons_ne_nil _ _) hpush.symm.eq_nil
          have hlen3 : q3.length ≤ n + 1 := by
            have h1 := hpush.length_eq
            have h2 := hp2.length_eq
            have h3 := hp1.length_eq
            simp only [List.length_cons] at h1 h3 hlen
            omega
          have hnode : Built (.node NOT_A_CHAR (a.count + b.count) a b) := by
            unfold Built
            rw [if_pos rfl]
            exact ⟨ha.ne_null, hb.ne_null, ha, hb, rfl⟩
          have hall3 : ∀ t ∈ q3, Built t := by
            intro t ht
            rcases List.mem_cons.mp (hpush.subset ht) with h | h
            · rw [h]; exact hnode
            · exact hsub1 t (List.mem_cons_of_mem _ (hp2.subset h))
          obtain ⟨t, ht1, ht2, ht3⟩ := ih q3 hq3ne hlen3 hall3
          refine ⟨t, ht1, ht2, ht3.trans ?_⟩
          refine (hpush.flatMap_right leaves).trans ?_
          have e1 : leaves (.node NOT_A_CHAR (a.count + b.count) a b) = leaves a ++ leaves b := by
            simp [leaves]
          simp only [List.flatMap_cons, e1, List.append_assoc]
          refine List.Perm.append_left _ ?_
          refine List.Perm.trans ?_ (hp1.flatMap_right leaves)
          simp only [List.flatMap_cons]
          exact List.Perm.append_left _ (hp2.flatMap_right leaves)
    · rename_i hshort
      match pq, hne, hshort with
      | [t], _, _ =>
        exact ⟨t, rfl, hall t (List.mem_singleton.mpr rfl), by simp⟩
      | _ :: _ :: _, _, hshort =>
        simp only [List.length_cons] at hshort
        omega

theorem lookup_cons_eq {β : Type} (k k1 : Int) (v1 : β) (rest : List (Int × β)) :
    List.lookup k ((k1, v1) :: rest) = if k = k1 then some v1 else List.lookup k rest := by
  by_cases h : k = k1
  · subst h
    simp [List.lookup]
  · have hb : (k == k1) = false := by simpa using h
    simp only [List.lookup, hb, if_neg h]

theorem lookup_of_mem {β : Type} :
    ∀ (m : List (Int × β)), (m.map Prod.fst).Nodup → ∀ (k : Int) (v : β), (k, v) ∈ m →
      List.lookup k m = some v := by
  intro m
  induction m with
  | nil => intro _ k v h; cases h
  | cons e rest ih =>
    intro hnd k v hmem
    obtain ⟨k1, v1⟩ := e
    rw [lookup_cons_eq]
    have hnd2 : k1 ∉ rest.map Prod.fst ∧ (rest.map Prod.fst).Nodup := List.nodup_cons.mp hnd
    rcases List.mem_cons.mp hmem with h | h
    · injection h with h1 h2
      rw [if_pos h1, h2]
    · have hk : k ≠ k1 := by
        intro e1
        apply hnd2.1
        rw [← e1]
        exact List.mem_map_of_mem Prod.fst h
      rw [if_neg hk]
      exact ih hnd2.2 k v h

theorem entries_eq_self (map : hashmapF) (hnd : (hashmapF.keys map).Nodup) :
    (hashmapF.keys map).map (fun key => (key, hashmapF.get map key)) = map := by
  unfold hashmapF.keys
  rw [List.map_map]
  conv => rhs; rw [← List.map_id map]
  apply List.map_congr_left
  intro e he
  obtain ⟨k, v⟩ := e
  have := lookup_of_mem map hnd k v he
  simp [hashmapF.get, this]

theorem leaves_leafNodes (map : hashmapF) :
    ∀ (keys : List Int), (∀ k ∈ keys, k ≠ NOT_A_CHAR) →
      (keys.map (fun key => HuffmanNode.node key (hashmapF.get map key) .null .null)).flatMap leaves
        = keys.map (fun key => (key, hashmapF.get map key)) := by
  intro keys
  induction keys with
  | nil => intro _; rfl
  | cons k rest ih =>
    intro h
    have hk : k ≠ NOT_A_CHAR := h k (List.mem_cons_self _ _)
    simp only [List.map_cons, List.flatMap_cons]
    rw [ih (fun k1 hk1 => h k1 (List.mem_cons_of_mem _ hk1))]
    simp [leaves, hk]

theorem buildEncodingTree_spec (map : hashmapF) (hv : ValidTable map) (hne : map ≠ []) :
    ∃ t, buildEncodingTree map = some t ∧ Built t ∧ (leaves t).Perm map := by
  have hnot : ∀ k ∈ hashmapF.keys map, k ≠ NOT_A_CHAR := fun k hk e => hv.2 (e ▸ hk)
  have hperm := pushLeaves_perm map (hashmapF.keys map) []
  rw [List.append_nil] at hperm
  unfold buildEncodingTree
  simp only
  generalize pushLeaves map (hashmapF.keys map) [] = pq at hperm
  have hpqne : pq ≠ [] := by
    intro h0
    subst h0
    have h1 := hperm.symm.eq_nil
    have h2 : hashmapF.keys map = [] := List.map_eq_nil_iff.mp h1
    exact hne (List.map_eq_nil_iff.mp h2)
  have hall : ∀ t ∈ pq, Built t := by
    intro t ht
    obtain ⟨k, hk, rfl⟩ := List.mem_map.mp (hperm.subset ht)
    unfold Built
    rw [if_neg (hnot k hk)]
    exact ⟨rfl, rfl⟩
  obtain ⟨t, ht1, ht2, ht3⟩ := mergeLoop_spec pq.length pq hpqne (Nat.le_succ _) hall
  refine ⟨t, ?_, ht2, ?_⟩
  · rw [ht1]
    rfl
  · refine ht3.trans ((hperm.flatMap_right leaves).trans ?_)
    rw [leaves_leafNodes map _ hnot, entries_eq_self map hv.1]

/-! ## The frequency table -/

theorem lookup_put (m : hashmapF) (key value k : Int) :
    List.lookup k (hashmapF.put m key value) = if k = key then some value else List.lookup k m := by
  induction m with
  | nil =>
    unfold hashmapF.put
    rw [lookup_cons_eq]
  | cons e rest ih =>
    obtain ⟨k1, v1⟩ := e
    unfold hashmapF.put
    by_cases h1 : k1 = key
    · rw [if_pos h1, lookup_cons_eq, lookup_cons_eq, h1]
      by_cases h : k = key
      · simp [h]
      · simp [h]
    · rw [if_neg h1, lookup_cons_eq, lookup_cons_eq, ih]
      by_cases h : k = k1
      · have : k ≠ key := by rw [h]; exact h1
        simp [h, h1]
      · simp [h]

theorem mem_map_fst_iff {β : Type} (m : List (Int × β)) (k : Int) :
    k ∈ m.map Prod.fst ↔ (List.lookup k m).isSome = true := by
  induction m with
  | nil => simp [List.lookup]
  | cons e rest ih =>
    obtain ⟨k1, v1⟩ := e
    rw [lookup_cons_eq, List.map_cons, List.mem_cons, ih]
    by_cases h : k = k1
    · simp [h]
    · simp [h]

theorem mem_keys_iff (m : hashmapF) (k : Int) :
    k ∈ hashmapF.keys m ↔ (List.lookup k m).isSome = true :=
  mem_map_fst_iff m k

theorem keys_put_nodup (m : hashmapF) (key value : Int) (h : (hashmapF.keys m).Nodup) :
    (hashmapF.keys (hashmapF.put m key value)).Nodup := by
  induction m with
  | nil => simp [hashmapF.put, hashmapF.keys]
  | cons e rest ih =>
    obtain ⟨k1, v1⟩ := e
    unfold hashmapF.put
    have h' : k1 ∉ hashmapF.keys rest ∧ (hashmapF.keys rest).Nodup :=
      List.nodup_cons.mp h
    by_cases h1 : k1 = key
    · rw [if_pos h1]
      subst h1
      exact h
    · rw [if_neg h1]
      have hk : k1 ∉ hashmapF.keys (hashmapF.put rest key value) := by
        rw [mem_keys_iff, lookup_put, if_neg h1, ← mem_keys_iff]
        exact h'.1
      exact List.nodup_cons.mpr ⟨hk, ih h'.2⟩

theorem lookup_frequencyMapHelper (sgn : Bool) (m : hashmapF) (c : CChar) (k : Int) :
    List.lookup k (frequencyMapHelper sgn m c) =
      if k = charToInt sgn c then some ((List.lookup k m).getD 0 + 1) else List.lookup k m := by
  unfold frequencyMapHelper
  by_cases hc : hashmapF.containsKey m (charToInt sgn c) = true
  · simp only [hc, Bool.not_true, Bool.false_eq_true, if_false, lookup_put, hashmapF.get]
    by_cases h : k = charToInt sgn c
    · simp [h]
    · simp [h]
  · simp only [hc, Bool.not_false, if_true, lookup_put]
    by_cases h : k = charToInt sgn c
    · have : List.lookup (charToInt sgn c) m = none := by
        unfold hashmapF.containsKey at hc
        cases hl : List.lookup (charToInt sgn c) m with
        | none => rfl
        | some v => rw [hl] at hc; exact (hc rfl).elim
      simp [h, this]
    · simp [h]

theorem lookup_countLoop (sgn : Bool) :
    ∀ (source : List CChar) (m : hashmapF) (k : Int),
      List.lookup k (countLoop sgn source m) =
        if source.countP (fun c => decide (charToInt sgn c = k)) = 0 then List.lookup k m
        else some ((List.lookup k m).getD 0
          + (source.countP (fun c => decide (charToInt sgn c = k)) : Nat)) := by
  intro source
  induction source with
  | nil => intro m k; simp [countLoop]
  | cons c rest ih =>
    intro m k
    unfold countLoop
    rw [ih, lookup_frequencyMapHelper, List.countP_cons]
    by_cases h : charToInt sgn c = k
    · have h' : k = charToInt sgn c := h.symm
      rw [if_pos h', if_pos (decide_eq_true h)]
      rw [if_neg (Nat.add_one_ne_zero _)]
      split
      · rename_i h0
        rw [h0]
        simp
      · simp only [Option.getD_some, Option.some.injEq]
        push_cast
        ring
    · have h' : ¬ k = charToInt sgn c := fun e => h e.symm
      rw [if_neg h']
      have hd : ¬ (decide (charToInt sgn c = k) = true) := by simpa using h
      rw [if_neg hd, Nat.add_zero]

theorem charToInt_range (sgn : Bool) (c : CChar) : -128 ≤ charToInt sgn c ∧ charToInt sgn c ≤ 255 := by
  unfold charToInt
  have := c.isLt
  split
  · rename_i h
    simp only [Bool.and_eq_true, decide_eq_true_eq] at h
    omega
  · omega

theorem charToInt_ne_PSEUDO_EOF (sgn : Bool) (c : CChar) : charToInt sgn c ≠ PSEUDO_EOF := by
  have := charToInt_range sgn c
  unfold PSEUDO_EOF
  omega

theorem charToInt_ne_NOT_A_CHAR (sgn : Bool) (c : CChar) : charToInt sgn c ≠ NOT_A_CHAR := by
  have := charToInt_range sgn c
  unfold NOT_A_CHAR
  omega

theorem intToChar_charToInt (sgn : Bool) (c : CChar) : intToChar (charToInt sgn c) = c := by
  apply Fin.ext
  have := c.isLt
  unfold intToChar charToInt
  simp only
  split
  · rename_i h
    simp only [Bool.and_eq_true, decide_eq_true_eq] at h
    omega
  · omega

theorem charToInt_injective (sgn : Bool) (c d : CChar) (h : charToInt sgn c = charToInt sgn d) :
    c = d := by
  rw [← intToChar_charToInt sgn c, ← intToChar_charToInt sgn d, h]

theorem countP_charToInt (sgn : Bool) (source : List CChar) (c : CChar) :
    source.countP (fun d => decide (charToInt sgn d = charToInt sgn c)) = source.count c := by
  unfold List.count
  apply List.countP_congr
  intro d _
  constructor
  · intro h
    have := charToInt_injective sgn d c (by simpa using h)
    simp [this]
  · intro h
    have : d = c := by simpa using h
    simp [this]

theorem countLoop_keys_nodup (sgn : Bool) :
    ∀ (source : List CChar) (m : hashmapF), (hashmapF.keys m).Nodup →
      (hashmapF.keys (countLoop sgn source m)).Nodup := by
  intro source
  induction source with
  | nil => intro m h; exact h
  | cons c rest ih =>
    intro m h
    unfold countLoop
    apply ih
    unfold frequencyMapHelper
    split
    · exact keys_put_nodup _ _ _ h
    · exact keys_put_nodup _ _ _ h

theorem lookup_buildFrequencyMap (sgn : Bool) (source : List CChar) (k : Int) :
    List.lookup k (buildFrequencyMap sgn source []) =
      if k = PSEUDO_EOF then some 1
      else if source.countP (fun c => decide (charToInt sgn c = k)) = 0 then none
      else some ((source.countP (fun c => decide (charToInt sgn c = k)) : Nat) : Int) := by
  unfold buildFrequencyMap
  rw [lookup_put, lookup_countLoop]
  simp [List.lookup]

theorem mem_keys_buildFrequencyMap (sgn : Bool) (source : List CChar) (k : Int) :
    k ∈ hashmapF.keys (buildFrequencyMap sgn source []) ↔
      (k = PSEUDO_EOF ∨ ∃ c ∈ source, charToInt sgn c = k) := by
  rw [mem_keys_iff, lookup_buildFrequencyMap]
  by_cases h : k = PSEUDO_EOF
  · simp [h]
  · rw [if_neg h]
    by_cases h0 : source.countP (fun c => decide (charToInt sgn c = k)) = 0
    · rw [if_pos h0]
      have h1 := List.countP_eq_zero.mp h0
      simp only [Option.isSome_none, Bool.false_eq_true, false_iff, not_or, not_exists, not_and]
      refine ⟨h, fun c hc => ?_⟩
      simpa using h1 c hc
    · rw [if_neg h0]
      have h1 : 0 < source.countP (fun c => decide (charToInt sgn c = k)) := Nat.pos_of_ne_zero h0
      obtain ⟨c, hc, hck⟩ := List.countP_pos_iff.mp h1
      simp only [Option.isSome_some, true_iff]
      exact Or.inr ⟨c, hc, by simpa using hck⟩

theorem buildFrequencyMap_valid (sgn : Bool) (source : List CChar) :
    ValidTable (buildFrequencyMap sgn source []) := by
  refine ⟨keys_put_nodup _ _ _ (countLoop_keys_nodup sgn source [] List.nodup_nil), ?_⟩
  rw [mem_keys_buildFrequencyMap]
  intro h
  rcases h with h | ⟨c, _, hc⟩
  · exact absurd h (by decide)
  · exact charToInt_ne_NOT_A_CHAR sgn c hc

/-! ## The code table -/

theorem lookup_assign (m : hashmapE) (key : Int) (str : List Char) (k : Int) :
    List.lookup k (hashmapE.assign m key str) = if k = key then some str else List.lookup k m := by
  induction m with
  | nil =>
    unfold hashmapE.assign
    rw [lookup_cons_eq]
  | cons e rest ih =>
    obtain ⟨k1, v1⟩ := e
    unfold hashmapE.assign
    by_cases h1 : k1 = key
    · rw [if_pos h1, lookup_cons_eq, lookup_cons_eq, h1]
      by_cases h : k = key
      · simp [h]
      · simp [h]
    · rw [if_neg h1, lookup_cons_eq, lookup_cons_eq, ih]
      by_cases h : k = k1
      · have : k ≠ key := by rw [h]; exact h1
        simp [h, h1]
      · simp [h]

theorem buildEncodingMap_eq_foldl :
    ∀ (t : HuffmanNode) (m : hashmapE) (str : List Char),
      _buildEncodingMap t m str
        = (codes t str).foldl (fun acc e => hashmapE.assign acc e.1 e.2) m := by
  intro t
  induction t with
  | null => intro m str; rfl
  | node character count zero one ihz iho =>
    intro m str
    unfold _buildEncodingMap codes
    by_cases hc : character = NOT_A_CHAR
    · rw [if_neg (not_not.mpr hc), if_neg (not_not.mpr hc)]
      simp only [List.dropLast_concat, List.foldl_append]
      rw [ihz, iho]
    · rw [if_pos hc, if_pos hc]
      rfl

theorem lookup_foldl_assign :
    ∀ (l : List (Int × List Char)) (m : hashmapE) (k : Int),
      List.lookup k (l.foldl (fun acc e => hashmapE.assign acc e.1 e.2) m)
        = (List.lookup k l.reverse).orElse (fun _ => List.lookup k m) := by
  intro l
  induction l using List.reverseRecOn with
  | nil => intro m k; rfl
  | append_singleton l e ih =>
    intro m k
    obtain ⟨k1, v1⟩ := e
    rw [List.foldl_append, List.reverse_append]
    simp only [List.foldl_cons, List.foldl_nil, List.reverse_cons, List.reverse_nil,
      List.nil_append, List.singleton_append]
    rw [lookup_assign, lookup_cons_eq, ih]
    by_cases h : k = k1
    · simp [h]
    · simp [h]

theorem mem_of_lookup {β : Type} :
    ∀ (l : List (Int × β)) (k : Int) (v : β), List.lookup k l = some v → (k, v) ∈ l := by
  intro l
  induction l with
  | nil => intro k v h; cases h
  | cons e rest ih =>
    intro k v h
    obtain ⟨k1, v1⟩ := e
    rw [lookup_cons_eq] at h
    by_cases hk : k = k1
    · rw [if_pos hk] at h
      injection h with h
      rw [hk, h]
      exact List.mem_cons_self _ _
    · rw [if_neg hk] at h
      exact List.mem_cons_of_mem _ (ih k v h)

theorem lookup_buildEncodingMap_mem (t : HuffmanNode) (k : Int) (c : List Char)
    (h : List.lookup k (buildEncodingMap t) = some c) : (k, c) ∈ codes t [] := by
  unfold buildEncodingMap at h
  rw [buildEncodingMap_eq_foldl, lookup_foldl_assign] at h
  cases hl : List.lookup k (codes t []).reverse with
  | none =>
    rw [hl] at h
    cases h
  | some v =>
    rw [hl] at h
    injection h with h
    rw [← h]
    exact List.mem_reverse.mp (mem_of_lookup _ k v hl)

theorem codes_keys : ∀ (t : HuffmanNode) (str : List Char),
    (codes t str).map Prod.fst = (leaves t).map Prod.fst := by
  intro t
  induction t with
  | null => intro str; rfl
  | node character count zero one ihz iho =>
    intro str
    unfold codes leaves
    by_cases hc : character = NOT_A_CHAR
    · rw [if_neg (not_not.mpr hc), if_neg (not_not.mpr hc), List.map_append, List.map_append,
        ihz, iho]
    · rw [if_pos hc, if_pos hc]
      rfl

theorem lookup_buildEncodingMap_of_mem (t : HuffmanNode)
    (hnd : ((leaves t).map Prod.fst).Nodup) (k : Int) (c : List Char)
    (h : (k, c) ∈ codes t []) : List.lookup k (buildEncodingMap t) = some c := by
  unfold buildEncodingMap
  rw [buildEncodingMap_eq_foldl, lookup_foldl_assign]
  have hnd2 : ((codes t []).reverse.map Prod.fst).Nodup := by
    rw [List.map_reverse, List.nodup_reverse, codes_keys]
    exact hnd
  rw [lookup_of_mem _ hnd2 k c (List.mem_reverse.mpr h)]
  rfl

theorem codes_shift : ∀ (t : HuffmanNode) (str : List Char),
    codes t str = (codes t []).map (fun e => (e.1, str ++ e.2)) := by
  intro t
  induction t with
  | null => intro str; rfl
  | node character count zero one ihz iho =>
    intro str
    unfold codes
    by_cases hc : character = NOT_A_CHAR
    · rw [if_neg (not_not.mpr hc), if_neg (not_not.mpr hc)]
      rw [ihz (str ++ ['0']), iho (str ++ ['1']), ihz ([] ++ ['0']), iho ([] ++ ['1'])]
      simp [List.map_append, List.map_map, Function.comp_def]
    · rw [if_pos hc, if_pos hc]
      simp

theorem codes_internal (count : Int) (zero one : HuffmanNode) :
    codes (.node NOT_A_CHAR count zero one) []
      = (codes zero []).map (fun e => (e.1, '0' :: e.2))
        ++ (codes one []).map (fun e => (e.1, '1' :: e.2)) := by
  have h : codes (.node NOT_A_CHAR count zero one) []
      = codes zero ([] ++ ['0']) ++ codes one ([] ++ ['1']) := by
    conv_lhs => unfold codes
    rw [if_neg (not_not.mpr rfl)]
  rw [h, codes_shift zero, codes_shift one]
  rfl

theorem codes_prefix_free : ∀ (t : HuffmanNode) (k1 k2 : Int) (c1 c2 : List Char),
    (k1, c1) ∈ codes t [] → (k2, c2) ∈ codes t [] → k1 ≠ k2 → ¬ c1 <+: c2 := by
  intro t
  induction t with
  | null => intro k1 k2 c1 c2 h1; cases h1
  | node character count zero one ihz iho =>
    intro k1 k2 c1 c2 h1 h2 hne
    by_cases hc : character = NOT_A_CHAR
    · subst hc
      rw [codes_internal] at h1 h2
      rcases List.mem_append.mp h1 with h1 | h1 <;> rcases List.mem_append.mp h2 with h2 | h2
      all_goals
        obtain ⟨⟨a1, q1⟩, hq1, e1⟩ := List.mem_map.mp h1
        obtain ⟨⟨a2, q2⟩, hq2, e2⟩ := List.mem_map.mp h2
        simp only [Prod.mk.injEq] at e1 e2
        obtain ⟨rfl, rfl⟩ := e1
        obtain ⟨rfl, rfl⟩ := e2
        intro hp
      · exact ihz _ _ _ _ hq1 hq2 hne ((List.prefix_cons_inj _).mp hp)
      · have := List.cons_prefix_cons.mp hp
        exact absurd this.1 (by decide)
      · have := List.cons_prefix_cons.mp hp
        exact absurd this.1 (by decide)
      · exact iho _ _ _ _ hq1 hq2 hne ((List.prefix_cons_inj _).mp hp)
    · unfold codes at h1 h2
      rw [if_pos hc] at h1 h2
      have e1 := List.mem_singleton.mp h1
      have e2 := List.mem_singleton.mp h2
      simp only [Prod.mk.injEq] at e1 e2
      exact absurd (e1.1.trans e2.1.symm) hne

theorem assign_of_not_mem :
    ∀ (m : hashmapE) (key : Int) (str : List Char), key ∉ m.map Prod.fst →
      hashmapE.assign m key str = m ++ [(key, str)] := by
  intro m
  induction m with
  | nil => intro key str _; rfl
  | cons e rest ih =>
    intro key str h
    obtain ⟨k1, v1⟩ := e
    unfold hashmapE.assign
    have h1 : k1 ≠ key := fun e1 => h (by rw [← e1]; exact List.mem_cons_self _ _)
    have h2 : key ∉ rest.map Prod.fst := fun h3 => h (List.mem_cons_of_mem _ h3)
    rw [if_neg h1, ih key str h2]
    rfl

theorem foldl_assign_of_nodup :
    ∀ (l : List (Int × List Char)) (m : hashmapE), ((m ++ l).map Prod.fst).Nodup →
      l.foldl (fun acc e => hashmapE.assign acc e.1 e.2) m = m ++ l := by
  intro l
  induction l with
  | nil => intro m _; simp
  | cons e rest ih =>
    intro m h
    have h1 : e.1 ∉ m.map Prod.fst := by
      intro hmem
      rw [List.map_append, List.map_cons] at h
      have hd := (List.nodup_append.mp h).2.2
      exact hd hmem (List.mem_cons_self _ _)
    rw [List.foldl_cons, assign_of_not_mem m e.1 e.2 h1, ih]
    · simp
    · simpa using h

theorem buildEncodingMap_eq_codes (t : HuffmanNode) (hnd : ((leaves t).map Prod.fst).Nodup) :
    buildEncodingMap t = codes t [] := by
  unfold buildEncodingMap
  rw [buildEncodingMap_eq_foldl, foldl_assign_of_nodup]
  · rfl
  · rw [List.nil_append, codes_keys]
    exact hnd

theorem leaves_keys_nodup {t : HuffmanNode} {map : hashmapF} (hv : ValidTable map)
    (hp : (leaves t).Perm map) : ((leaves t).map Prod.fst).Nodup :=
  ((hp.map Prod.fst).nodup_iff).mpr hv.1

theorem follow_null : ∀ (p : List Char), follow .null p = .null
  | [] => rfl
  | _ :: _ => rfl

theorem codes_of_follow : ∀ (t : HuffmanNode), Built t →
    ∀ (p : List Char) (character count : Int),
      follow t p = .node character count .null .null → (character, p) ∈ codes t [] := by
  intro t
  induction t with
  | null => intro h; exact h.elim
  | node ch0 cnt0 zero one ihz iho =>
    intro hb p character count hf
    unfold Built at hb
    by_cases hc : ch0 = NOT_A_CHAR
    · rw [if_pos hc] at hb
      subst hc
      rw [codes_internal]
      cases p with
      | nil =>
        simp only [follow] at hf
        injection hf with _ _ hz _
        exact (hb.1 hz).elim
      | cons c rest =>
        simp only [follow] at hf
        by_cases h0 : c = '0'
        · rw [if_pos h0] at hf
          subst h0
          exact List.mem_append_left _
            (List.mem_map.mpr ⟨(character, rest), ihz hb.2.2.1 rest character count hf, rfl⟩)
        · rw [if_neg h0] at hf
          by_cases h1 : c = '1'
          · rw [if_pos h1] at hf
            subst h1
            exact List.mem_append_right _
              (List.mem_map.mpr ⟨(character, rest), iho hb.2.2.2.1 rest character count hf, rfl⟩)
          · rw [if_neg h1] at hf
            cases hf
    · rw [if_neg hc] at hb
      obtain ⟨hz, ho⟩ := hb
      subst hz
      subst ho
      cases p with
      | nil =>
        simp only [follow] at hf
        injection hf with h1 _ _ _
        subst h1
        unfold codes
        rw [if_pos hc]
        exact List.mem_singleton.mpr rfl
      | cons c rest =>
        simp only [follow, follow_null] at hf
        split at hf
        · cases hf
        · split at hf <;> cases hf

theorem buildEncodingTree_single (key value : Int) :
    buildEncodingTree [(key, value)] = some (.node key value .null .null) := by
  simp [buildEncodingTree, hashmapF.keys, pushLeaves, pqPush, siftUp, mergeLoop, pqTop,
    hashmapF.get, List.lookup]

/-! ## Encoding and decoding -/

theorem writeBits_append : ∀ (a b : List Char), writeBits (a ++ b) = writeBits a ++ writeBits b := by
  intro a
  induction a with
  | nil => intro b; rfl
  | cons c rest ih =>
    intro b
    by_cases h1 : c = '1'
    · simp [writeBits, h1, ih]
    · by_cases h0 : c = '0'
      · simp [writeBits, h0, ih]
      · simp [writeBits, h0, h1, ih]

theorem encodeLoop_eq (sgn : Bool) (encodingMap : hashmapE) :
    ∀ (input : List CChar) (str : List Char),
      encodeLoop sgn encodingMap input str
        = str ++ input.flatMap (fun c => hashmapE.subscript encodingMap (charToInt sgn c)) := by
  intro input
  induction input with
  | nil => intro str; simp [encodeLoop]
  | cons c rest ih =>
    intro str
    unfold encodeLoop
    rw [ih]
    simp

theorem decodeLoop_pending (root : HuffmanNode) (count : Int) (zero one : HuffmanNode)
    (hroot : root = .node NOT_A_CHAR count zero one) (k cnt : Int) (hk : k ≠ NOT_A_CHAR)
    (bit : Int) (rest : List Int) (str output : List CChar) :
    decodeLoop root (bit :: rest) (.node k cnt .null .null) str output
      = decodeLoop root (bit :: rest) root (str ++ [intToChar k]) (output ++ [intToChar k]) := by
  subst hroot
  simp [decodeLoop, hk]

theorem Built.leaf_codes {k cnt : Int} {zero one : HuffmanNode} (hk : k ≠ NOT_A_CHAR)
    (hb : Built (.node k cnt zero one)) :
    zero = .null ∧ one = .null ∧ codes (.node k cnt zero one) [] = [(k, [])] := by
  unfold Built at hb
  rw [if_neg hk] at hb
  refine ⟨hb.1, hb.2, ?_⟩
  unfold codes
  rw [if_pos hk]

theorem decodeLoop_step (root : HuffmanNode) (count : Int) (zero one : HuffmanNode)
    (bit : Int) (child : HuffmanNode) (hchild : Built child)
    (hbit : (bit = 0 ∧ child = zero) ∨ (bit = 1 ∧ child = one))
    (ih : ∀ cnt z o, child = .node NOT_A_CHAR cnt z o →
      ∀ (k : Int) (q : List Char), (k, q) ∈ codes child [] →
        ∀ (rest : List Int) (str output : List CChar),
          ∃ c, decodeLoop root (writeBits q ++ rest) child str output =
            if k = PSEUDO_EOF then some ⟨str, output⟩
            else decodeLoop root rest (.node k c .null .null) str output)
    (k : Int) (q : List Char) (hq : (k, q) ∈ codes child [])
    (rest : List Int) (str output : List CChar) :
    ∃ c, decodeLoop root (bit :: (writeBits q ++ rest)) (.node NOT_A_CHAR count zero one) str output =
      if k = PSEUDO_EOF then some ⟨str, output⟩
      else decodeLoop root rest (.node k c .null .null) str output := by
  cases child with
  | null => exact hchild.elim
  | node ch2 c2 z2 o2 =>
    have hstep : decodeLoop root (bit :: (writeBits q ++ rest)) (.node NOT_A_CHAR count zero one)
        str output =
        if ch2 = PSEUDO_EOF then some ⟨str, output⟩
        else decodeLoop root (writeBits q ++ rest) (.node ch2 c2 z2 o2) str output := by
      rcases hbit with ⟨hb0, hz⟩ | ⟨hb1, ho⟩
      · subst hb0; subst hz
        simp [decodeLoop]
      · subst hb1; subst ho
        simp [decodeLoop]
    by_cases hc : ch2 = NOT_A_CHAR
    · subst hc
      obtain ⟨c, hc2⟩ := ih c2 z2 o2 rfl k q hq rest str output
      refine ⟨c, ?_⟩
      rw [hstep, if_neg (by decide), hc2]
    · obtain ⟨hz2, ho2, hcodes⟩ := Built.leaf_codes hc hchild
      rw [hcodes] at hq
      have e := List.mem_singleton.mp hq
      injection e with e1 e2
      subst e1; subst e2; subst hz2; subst ho2
      refine ⟨c2, ?_⟩
      rw [hstep]
      rfl

theorem decodeLoop_walk (root : HuffmanNode) :
    ∀ (t : HuffmanNode), Built t → ∀ (count : Int) (zero one : HuffmanNode),
      t = .node NOT_A_CHAR count zero one →
      ∀ (k : Int) (q : List Char), (k, q) ∈ codes t [] →
        ∀ (rest : List Int) (str output : List CChar),
          ∃ c, decodeLoop root (writeBits q ++ rest) t str output =
            if k = PSEUDO_EOF then some ⟨str, output⟩
            else decodeLoop root rest (.node k c .null .null) str output := by
  intro t
  induction t with
  | null => intro h; exact h.elim
  | node ch0 cnt0 z o ihz iho =>
    intro hb count zero one ht k q hq rest str output
    injection ht with h1 h2 h3 h4
    subst h1; subst h2; subst h3; subst h4
    unfold Built at hb
    rw [if_pos rfl] at hb
    rw [codes_internal] at hq
    rcases List.mem_append.mp hq with hq | hq
    · obtain ⟨⟨k1, q1⟩, hq1, e⟩ := List.mem_map.mp hq
      injection e with e1 e2
      subst e1; subst e2
      have hw : writeBits ('0' :: q1) ++ rest = 0 :: (writeBits q1 ++ rest) := by
        simp [writeBits]
      rw [hw]
      exact decodeLoop_step root cnt0 z o 0 z hb.2.2.1 (Or.inl ⟨rfl, rfl⟩)
        (ihz hb.2.2.1) k1 q1 hq1 rest str output
    · obtain ⟨⟨k1, q1⟩, hq1, e⟩ := List.mem_map.mp hq
      injection e with e1 e2
      subst e1; subst e2
      have hw : writeBits ('1' :: q1) ++ rest = 1 :: (writeBits q1 ++ rest) := by
        simp [writeBits]
      rw [hw]
      exact decodeLoop_step root cnt0 z o 1 o hb.2.2.2.1 (Or.inr ⟨rfl, rfl⟩)
        (iho hb.2.2.2.1) k1 q1 hq1 rest str output

theorem writeBits_code_ne_nil (count : Int) (zero one : HuffmanNode) (k : Int) (q : List Char)
    (hq : (k, q) ∈ codes (.node NOT_A_CHAR count zero one) []) : writeBits q ≠ [] := by
  rw [codes_internal] at hq
  rcases List.mem_append.mp hq with hq | hq
  all_goals
    obtain ⟨⟨k1, q1⟩, _, e⟩ := List.mem_map.mp hq
    injection e with e1 e2
    subst e2
    simp [writeBits]

theorem decodeLoop_encoded (sgn : Bool) (root : HuffmanNode) (hb : Built root)
    (count : Int) (zero one : HuffmanNode) (hroot : root = .node NOT_A_CHAR count zero one)
    (code : Int → List Char)
    (hcode : ∀ k, k ∈ (leaves root).map Prod.fst → (k, code k) ∈ codes root [])
    (heof : PSEUDO_EOF ∈ (leaves root).map Prod.fst) (trailing : List Int) :
    ∀ (source : List CChar), (∀ c ∈ source, charToInt sgn c ∈ (leaves root).map Prod.fst) →
      ∀ (str output : List CChar),
        decodeLoop root
          (writeBits (source.flatMap (fun c => code (charToInt sgn c)) ++ code PSEUDO_EOF)
            ++ trailing) root str output
          = some ⟨str ++ source, output ++ source⟩ := by
  intro source
  induction source with
  | nil =>
    intro _ str output
    obtain ⟨c, hc⟩ := decodeLoop_walk root root hb count zero one hroot PSEUDO_EOF
      (code PSEUDO_EOF) (hcode _ heof) trailing str output
    simp only [List.flatMap_nil, List.nil_append, List.append_nil]
    rw [hc, if_pos rfl]
  | cons c rest ih =>
    intro hsrc str output
    have hmem := hsrc c (List.mem_cons_self _ _)
    have hk : charToInt sgn c ≠ PSEUDO_EOF := charToInt_ne_PSEUDO_EOF sgn c
    simp only [List.flatMap_cons, List.append_assoc, writeBits_append]
    obtain ⟨cnt, hw⟩ := decodeLoop_walk root root hb count zero one hroot (charToInt sgn c)
      (code (charToInt sgn c)) (hcode _ hmem)
      (writeBits (rest.flatMap (fun c => code (charToInt sgn c)))
        ++ (writeBits (code PSEUDO_EOF) ++ trailing)) str output
    rw [hw, if_neg hk]
    have hne : writeBits (rest.flatMap (fun c => code (charToInt sgn c)))
        ++ (writeBits (code PSEUDO_EOF) ++ trailing) ≠ [] := by
      intro h0
      have h1 := (List.append_eq_nil.mp h0).2
      have h2 := (List.append_eq_nil.mp h1).1
      have h3 := hcode _ heof
      rw [hroot] at h3
      exact writeBits_code_ne_nil count zero one _ _ h3 h2
    obtain ⟨bit, more, hbits⟩ := List.exists_cons_of_ne_nil hne
    rw [hbits, decodeLoop_pending root count zero one hroot _ cnt
      (charToInt_ne_NOT_A_CHAR sgn c), ← hbits, intToChar_charToInt]
    have := ih (fun d hd => hsrc d (List.mem_cons_of_mem _ hd)) (str ++ [c]) (output ++ [c])
    simp only [List.append_assoc, writeBits_append, List.singleton_append] at this
    exact this

theorem Built.internal_of_two_leaves {t : HuffmanNode} (hb : Built t)
    (h2 : 2 ≤ (leaves t).length) : ∃ count zero one, t = .node NOT_A_CHAR count zero one := by
  cases t with
  | null => exact hb.elim
  | node ch cnt z o =>
    by_cases hc : ch = NOT_A_CHAR
    · exact ⟨cnt, z, o, by rw [hc]⟩
    · unfold leaves at h2
      rw [if_pos hc] at h2
      simp at h2

theorem subscript_mem_codes (t : HuffmanNode) (hnd : ((leaves t).map Prod.fst).Nodup) (k : Int)
    (hk : k ∈ (leaves t).map Prod.fst) :
    (k, hashmapE.subscript (buildEncodingMap t) k) ∈ codes t [] := by
  rw [← codes_keys t [], mem_map_fst_iff] at hk
  cases hl : List.lookup k (codes t []) with
  | none => rw [hl] at hk; cases hk
  | some q =>
    unfold hashmapE.subscript
    rw [buildEncodingMap_eq_codes t hnd, hl]
    exact mem_of_lookup _ k q hl

theorem two_le_length_of_mem {l : List Int} (hnd : l.Nodup) {a b : Int} (ha : a ∈ l) (hb : b ∈ l)
    (hab : a ≠ b) : 2 ≤ l.length := by
  match l, hnd, ha, hb with
  | [x], _, ha, hb =>
    exact absurd ((List.mem_singleton.mp ha).trans (List.mem_singleton.mp hb).symm) hab
  | _ :: _ :: _, _, _, _ => simp

theorem encode_output (sgn : Bool) (input : List CChar) (encodingMap : hashmapE) :
    (encode sgn input encodingMap true).output
      = writeBits (input.flatMap (fun c => hashmapE.subscript encodingMap (charToInt sgn c))
          ++ hashmapE.subscript encodingMap PSEUDO_EOF) := by
  simp [encode, encodeLoop_eq]

theorem encode_str (sgn : Bool) (input : List CChar) (encodingMap : hashmapE) (makeFile : Bool) :
    (encode sgn input encodingMap makeFile).str
      = input.flatMap (fun c => hashmapE.subscript encodingMap (charToInt sgn c))
          ++ hashmapE.subscript encodingMap PSEUDO_EOF := by
  cases makeFile <;> simp [encode, encodeLoop_eq]

theorem ValidTable.of_perm {map map1 : hashmapF} (hp : map1.Perm map) (hv : ValidTable map) :
    ValidTable map1 := by
  have hk : (hashmapF.keys map1).Perm (hashmapF.keys map) := hp.map Prod.fst
  exact ⟨hk.nodup_iff.mpr hv.1, fun h => hv.2 (hk.subset h)⟩

theorem decode_encode_trailing (sgn : Bool) (source : List CChar) (hne : source ≠ [])
    (map : hashmapF) (hmap : map.Perm (buildFrequencyMap sgn source []))
    (trailing : List Int) :
    ∃ t, buildEncodingTree map = some t ∧
      decode ((encode sgn source (buildEncodingMap t) true).output ++ trailing) t
        = some ⟨source, source⟩ := by
  have hv : ValidTable map := ValidTable.of_perm hmap (buildFrequencyMap_valid sgn source)
  have hkeys : ∀ k, k ∈ hashmapF.keys map ↔ (k = PSEUDO_EOF ∨ ∃ c ∈ source, charToInt sgn c = k) :=
    fun k => ((hmap.map Prod.fst).mem_iff).trans (mem_keys_buildFrequencyMap sgn source k)
  obtain ⟨c0, rest, rfl⟩ := List.exists_cons_of_ne_nil hne
  have hEOF : PSEUDO_EOF ∈ hashmapF.keys map := (hkeys _).mpr (Or.inl rfl)
  have hc0 : charToInt sgn c0 ∈ hashmapF.keys map :=
    (hkeys _).mpr (Or.inr ⟨c0, List.mem_cons_self _ _, rfl⟩)
  have hlen : 2 ≤ (hashmapF.keys map).length :=
    two_le_length_of_mem hv.1 hc0 hEOF (charToInt_ne_PSEUDO_EOF sgn c0)
  have hmne : map ≠ [] := by
    intro h0
    rw [h0] at hEOF
    cases hEOF
  obtain ⟨t, ht, hb, hp⟩ := buildEncodingTree_spec _ hv hmne
  have hnd := leaves_keys_nodup hv hp
  have hleafkeys : ∀ k, k ∈ hashmapF.keys map → k ∈ (leaves t).map Prod.fst :=
    fun k hk => (hp.map Prod.fst).symm.subset hk
  have hl2 : 2 ≤ (leaves t).length := by
    have := hp.length_eq
    rw [this]
    simpa [hashmapF.keys] using hlen
  obtain ⟨count, zero, one, hroot⟩ := hb.internal_of_two_leaves hl2
  refine ⟨t, ht, ?_⟩
  unfold decode
  rw [encode_output]
  have := decodeLoop_encoded sgn t hb count zero one hroot
    (fun k => hashmapE.subscript (buildEncodingMap t) k)
    (fun k hk => subscript_mem_codes t hnd k hk) (hleafkeys _ hEOF) trailing (c0 :: rest)
    (fun c hc => hleafkeys _ ((hkeys _).mpr (Or.inr ⟨c, hc, rfl⟩))) [] []
  simpa using this

theorem writeBits_binary : ∀ (s : List Char), (∀ d ∈ s, d = '0' ∨ d = '1') →
    writeBits s = s.map (fun d => if d = '1' then 1 else 0) := by
  intro s
  induction s with
  | nil => intro _; rfl
  | cons c rest ih =>
    intro h
    have hrest := ih (fun d hd => h d (List.mem_cons_of_mem _ hd))
    rcases h c (List.mem_cons_self _ _) with h0 | h1
    · subst h0
      simp [writeBits, hrest]
    · subst h1
      simp [writeBits, hrest]

theorem decodeLoop_nil (root t : HuffmanNode) (str output : List CChar) :
    decodeLoop root [] t str output = some ⟨str, output⟩ := by
  unfold decodeLoop
  rfl

theorem decodeLoop_step_take (root : HuffmanNode) (count : Int) (zero one : HuffmanNode)
    (bit : Int) (child : HuffmanNode) (hchild : Built child)
    (hbit : (bit = 0 ∧ child = zero) ∨ (bit = 1 ∧ child = one))
    (ih : ∀ cnt z o, child = .node NOT_A_CHAR cnt z o →
      ∀ (k : Int) (q : List Char), (k, q) ∈ codes child [] →
        ∀ (n : Nat) (str output : List CChar),
          decodeLoop root ((writeBits q).take n) child str output = some ⟨str, output⟩)
    (k : Int) (q : List Char) (hq : (k, q) ∈ codes child [])
    (n : Nat) (str output : List CChar) :
    decodeLoop root (bit :: (writeBits q).take n) (.node NOT_A_CHAR count zero one) str output
      = some ⟨str, output⟩ := by
  cases child with
  | null => exact hchild.elim
  | node ch2 c2 z2 o2 =>
    have hstep : decodeLoop root (bit :: (writeBits q).take n) (.node NOT_A_CHAR count zero one)
        str output =
        if ch2 = PSEUDO_EOF then some ⟨str, output⟩
        else decodeLoop root ((writeBits q).take n) (.node ch2 c2 z2 o2) str output := by
      rcases hbit with ⟨hb0, hz⟩ | ⟨hb1, ho⟩
      · subst hb0; subst hz
        simp [decodeLoop]
      · subst hb1; subst ho
        simp [decodeLoop]
    rw [hstep]
    split
    · rfl
    · by_cases hc : ch2 = NOT_A_CHAR
      · subst hc
        exact ih c2 z2 o2 rfl k q hq n str output
      · obtain ⟨_, _, hcodes⟩ := Built.leaf_codes hc hchild
        rw [hcodes] at hq
        have e := List.mem_singleton.mp hq
        injection e with e1 e2
        subst e2
        simp only [writeBits, List.take_nil]
        exact decodeLoop_nil _ _ _ _

theorem decodeLoop_walk_take (root : HuffmanNode) :
    ∀ (t : HuffmanNode), Built t → ∀ (count : Int) (zero one : HuffmanNode),
      t = .node NOT_A_CHAR count zero one →
      ∀ (k : Int) (q : List Char), (k, q) ∈ codes t [] →
        ∀ (n : Nat) (str output : List CChar),
          decodeLoop root ((writeBits q).take n) t str output = some ⟨str, output⟩ := by
  intro t
  induction t with
  | null => intro h; exact h.elim
  | node ch0 cnt0 z o ihz iho =>
    intro hb count zero one ht k q hq n str output
    injection ht with h1 h2 h3 h4
    subst h1; subst h2; subst h3; subst h4
    unfold Built at hb
    rw [if_pos rfl] at hb
    rw [codes_internal] at hq
    cases n with
    | zero => rw [List.take_zero]; exact decodeLoop_nil _ _ _ _
    | succ n =>
      rcases List.mem_append.mp hq with hq | hq
      · obtain ⟨⟨k1, q1⟩, hq1, e⟩ := List.mem_map.mp hq
        injection e with e1 e2
        subst e1; subst e2
        have hw : (writeBits ('0' :: q1)).take (n + 1) = 0 :: (writeBits q1).take n := by
          simp [writeBits]
        rw [hw]
        exact decodeLoop_step_take root cnt0 z o 0 z hb.2.2.1 (Or.inl ⟨rfl, rfl⟩)
          (ihz hb.2.2.1) k1 q1 hq1 n str output
      · obtain ⟨⟨k1, q1⟩, hq1, e⟩ := List.mem_map.mp hq
        injection e with e1 e2
        subst e1; subst e2
        have hw : (writeBits ('1' :: q1)).take (n + 1) = 1 :: (writeBits q1).take n := by
          simp [writeBits]
        rw [hw]
        exact decodeLoop_step_take root cnt0 z o 1 o hb.2.2.2.1 (Or.inr ⟨rfl, rfl⟩)
          (iho hb.2.2.2.1) k1 q1 hq1 n str output

theorem decodeLoop_truncated (sgn : Bool) (root : HuffmanNode) (hb : Built root)
    (count : Int) (zero one : HuffmanNode) (hroot : root = .node NOT_A_CHAR count zero one)
    (code : Int → List Char)
    (hcode : ∀ k, k ∈ (leaves root).map Prod.fst → (k, code k) ∈ codes root [])
    (heof : PSEUDO_EOF ∈ (leaves root).map Prod.fst) :
    ∀ (source : List CChar), (∀ c ∈ source, charToInt sgn c ∈ (leaves root).map Prod.fst) →
      ∀ (n : Nat) (str output : List CChar),
        ∃ p, p <+: source ∧
          decodeLoop root
            ((writeBits (source.flatMap (fun c => code (charToInt sgn c)) ++ code PSEUDO_EOF)).take n)
            root str output
            = some ⟨str ++ p, output ++ p⟩ := by
  intro source
  induction source with
  | nil =>
    intro _ n str output
    refine ⟨[], List.prefix_refl _, ?_⟩
    simp only [List.flatMap_nil, List.nil_append, List.append_nil]
    exact decodeLoop_walk_take root root hb count zero one hroot PSEUDO_EOF
      (code PSEUDO_EOF) (hcode _ heof) n str output
  | cons c rest ih =>
    intro hsrc n str output
    have hmem := hsrc c (List.mem_cons_self _ _)
    have hk : charToInt sgn c ≠ PSEUDO_EOF := charToInt_ne_PSEUDO_EOF sgn c
    simp only [List.flatMap_cons, List.append_assoc, writeBits_append]
    rw [List.take_append_eq_append_take]
    generalize hB : (writeBits (rest.flatMap (fun c => code (charToInt sgn c)))
        ++ writeBits (code PSEUDO_EOF)) = B
    cases hrest : B.take (n - (writeBits (code (charToInt sgn c))).length) with
    | nil =>
      refine ⟨[], List.nil_prefix, ?_⟩
      rw [List.append_nil, List.append_nil, List.append_nil]
      exact decodeLoop_walk_take root root hb count zero one hroot (charToInt sgn c)
        (code (charToInt sgn c)) (hcode _ hmem) n str output
    | cons bit more =>
      have hlen : (writeBits (code (charToInt sgn c))).length ≤ n := by
        by_contra hlt
        have h0 : n - (writeBits (code (charToInt sgn c))).length = 0 := by omega
        rw [h0, List.take_zero] at hrest
        cases hrest
      rw [List.take_of_length_le hlen]
      obtain ⟨cnt, hw⟩ := decodeLoop_walk root root hb count zero one hroot (charToInt sgn c)
        (code (charToInt sgn c)) (hcode _ hmem) (bit :: more) str output
      rw [hw, if_neg hk, decodeLoop_pending root count zero one hroot _ cnt
        (charToInt_ne_NOT_A_CHAR sgn c), intToChar_charToInt, ← hrest, ← hB]
      obtain ⟨p, hp, hd⟩ := ih (fun d hd => hsrc d (List.mem_cons_of_mem _ hd))
        (n - (writeBits (code (charToInt sgn c))).length) (str ++ [c]) (output ++ [c])
      refine ⟨c :: p, (List.prefix_cons_inj c).mpr hp, ?_⟩
      simp only [writeBits_append, List.append_assoc, List.singleton_append] at hd
      exact hd

theorem decodeLoop_safe (root : HuffmanNode) (hb : Built root)
    (count : Int) (zero one : HuffmanNode) (hroot : root = .node NOT_A_CHAR count zero one) :
    ∀ (input : List Int) (t : HuffmanNode), Built t → ∀ (str output : List CChar),
      (decodeLoop root input t str output).isSome = true := by
  intro input
  induction input with
  | nil => intro t _ str output; rw [decodeLoop_nil]; rfl
  | cons bit rest ih =>
    intro t ht str output
    cases t with
    | null => exact ht.elim
    | node ch cnt z o =>
      subst hroot
      have hbr := hb
      unfold Built at hbr
      rw [if_pos rfl] at hbr
      by_cases hc : ch = NOT_A_CHAR
      · subst hc
        have htt := ht
        unfold Built at htt
        rw [if_pos rfl] at htt
        by_cases h1 : bit = 1
        · subst h1
          cases o with
          | null => exact (htt.2.1 rfl).elim
          | node ch2 c2 z2 o2 =>
            simp only [decodeLoop, ne_eq, not_true_eq_false, decide_False, Bool.false_eq_true,
              if_false, if_true]
            split
            · rfl
            · exact ih _ htt.2.2.2.1 _ _
        · by_cases h0 : bit = 0
          · subst h0
            cases z with
            | null => exact (htt.1 rfl).elim
            | node ch2 c2 z2 o2 =>
              simp only [decodeLoop, ne_eq, not_true_eq_false, decide_False, Bool.false_eq_true,
                if_false, if_true, h1]
              split
              · rfl
              · exact ih _ htt.2.2.1 _ _
          · simp only [decodeLoop, ne_eq, not_true_eq_false, decide_False, Bool.false_eq_true,
              if_false, h1, h0]
            split
            · rfl
            · exact ih _ ht _ _
      · by_cases h1 : bit = 1
        · subst h1
          cases one with
          | null => exact (hbr.2.1 rfl).elim
          | node ch2 c2 z2 o2 =>
            simp only [decodeLoop, ne_eq, hc, not_false_eq_true, decide_True, if_true]
            split
            · rfl
            · exact ih _ hbr.2.2.2.1 _ _
        · by_cases h0 : bit = 0
          · subst h0
            cases zero with
            | null => exact (hbr.1 rfl).elim
            | node ch2 c2 z2 o2 =>
              simp only [decodeLoop, ne_eq, hc, not_false_eq_true, decide_True, if_true, h1,
                if_false]
              split
              · rfl
              · exact ih _ hbr.2.2.1 _ _
          · simp only [decodeLoop, ne_eq, hc, not_false_eq_true, decide_True, if_true, h1, h0,
              if_false]
            split
            · rfl
            · exact ih _ hb _ _

theorem movesFromInternal_of_built (root : HuffmanNode) (hb : Built root)
    (count : Int) (zero one : HuffmanNode) (hroot : root = .node NOT_A_CHAR count zero one) :
    ∀ (input : List Int) (t : HuffmanNode), Built t → MovesFromInternal root input t := by
  intro input
  induction input with
  | nil => intro t _; cases t <;> trivial
  | cons bit rest ih =>
    intro t ht
    have key : ∀ (cnt1 : Int) (z1 o1 : HuffmanNode), Built (.node NOT_A_CHAR cnt1 z1 o1) →
        ((bit = 1 ∨ bit = 0) → NOT_A_CHAR = NOT_A_CHAR ∧ z1 ≠ .null ∧ o1 ≠ .null) ∧
        match (if bit = 1 then o1 else if bit = 0 then z1
            else .node NOT_A_CHAR cnt1 z1 o1) with
        | .null => False
        | .node character2 count2 zero2 one2 =>
          character2 = PSEUDO_EOF ∨
            MovesFromInternal root rest (.node character2 count2 zero2 one2) := by
      intro cnt1 z1 o1 h1
      have h1' := h1
      unfold Built at h1'
      rw [if_pos rfl] at h1'
      refine ⟨fun _ => ⟨rfl, h1'.1, h1'.2.1⟩, ?_⟩
      by_cases hb1 : bit = 1
      · rw [if_pos hb1]
        cases o1 with
        | null => exact (h1'.2.1 rfl).elim
        | node c2 n2 z2 o2 => exact Or.inr (ih _ h1'.2.2.2.1)
      · rw [if_neg hb1]
        by_cases hb0 : bit = 0
        · rw [if_pos hb0]
          cases z1 with
          | null => exact (h1'.1 rfl).elim
          | node c2 n2 z2 o2 => exact Or.inr (ih _ h1'.2.2.1)
        · rw [if_neg hb0]
          exact Or.inr (ih _ h1)
    cases t with
    | null => exact ht.elim
    | node ch cnt z o =>
      unfold MovesFromInternal
      by_cases hc : ch = NOT_A_CHAR
      · subst hc
        dsimp only
        rw [if_neg (not_not.mpr rfl)]
        exact key cnt z o ht
      · dsimp only
        rw [if_pos hc]
        subst hroot
        exact key count zero one hb

theorem tree_of_source (sgn : Bool) (source : List CChar) (hne : source ≠ [])
    (map : hashmapF) (hmap : map.Perm (buildFrequencyMap sgn source [])) :
    ∃ t count zero one, buildEncodingTree map = some t ∧ Built t ∧
      t = .node NOT_A_CHAR count zero one ∧ ((leaves t).map Prod.fst).Nodup ∧
      PSEUDO_EOF ∈ (leaves t).map Prod.fst ∧
      ∀ c ∈ source, charToInt sgn c ∈ (leaves t).map Prod.fst := by
  have hv : ValidTable map := ValidTable.of_perm hmap (buildFrequencyMap_valid sgn source)
  have hkeys : ∀ k, k ∈ hashmapF.keys map ↔ (k = PSEUDO_EOF ∨ ∃ c ∈ source, charToInt sgn c = k) :=
    fun k => ((hmap.map Prod.fst).mem_iff).trans (mem_keys_buildFrequencyMap sgn source k)
  obtain ⟨c0, rest, rfl⟩ := List.exists_cons_of_ne_nil hne
  have hEOF : PSEUDO_EOF ∈ hashmapF.keys map := (hkeys _).mpr (Or.inl rfl)
  have hc0 : charToInt sgn c0 ∈ hashmapF.keys map :=
    (hkeys _).mpr (Or.inr ⟨c0, List.mem_cons_self _ _, rfl⟩)
  have hlen : 2 ≤ (hashmapF.keys map).length :=
    two_le_length_of_mem hv.1 hc0 hEOF (charToInt_ne_PSEUDO_EOF sgn c0)
  have hmne : map ≠ [] := by
    intro h0
    rw [h0] at hEOF
    cases hEOF
  obtain ⟨t, ht, hb, hp⟩ := buildEncodingTree_spec _ hv hmne
  have hleafkeys : ∀ k, k ∈ hashmapF.keys map → k ∈ (leaves t).map Prod.fst :=
    fun k hk => (hp.map Prod.fst).symm.subset hk
  have hl2 : 2 ≤ (leaves t).length := by
    have := hp.length_eq
    rw [this]
    simpa [hashmapF.keys] using hlen
  obtain ⟨count, zero, one, hroot⟩ := hb.internal_of_two_leaves hl2
  exact ⟨t, count, zero, one, ht, hb, hroot, leaves_keys_nodup hv hp, hleafkeys _ hEOF,
    fun c hc => hleafkeys _ ((hkeys _).mpr (Or.inr ⟨c, hc, rfl⟩))⟩

theorem encodeLoop_filter (sgn : Bool) (encodingMap : hashmapE) :
    ∀ (input : List CChar),
      input.flatMap (fun c => hashmapE.subscript encodingMap (charToInt sgn c))
        = (input.filter (fun c => (List.lookup (charToInt sgn c) encodingMap).isSome)).flatMap
            (fun c => hashmapE.subscript encodingMap (charToInt sgn c)) := by
  intro input
  induction input with
  | nil => rfl
  | cons c rest ih =>
    rw [List.flatMap_cons, List.filter_cons]
    cases h : List.lookup (charToInt sgn c) encodingMap with
    | none =>
      simp only [Option.isSome_none, Bool.false_eq_true, if_false]
      rw [← ih]
      simp [hashmapE.subscript, h]
    | some s =>
      simp only [Option.isSome_some, if_true, List.flatMap_cons]
      rw [← ih]

theorem find_append_self (pattern : List Char) :
    ∀ (z : List Char), ∃ n, n ≤ z.length ∧ find (z ++ pattern) pattern = some n := by
  intro z
  induction z with
  | nil =>
    refine ⟨0, Nat.le_refl _, ?_⟩
    have hp : pattern.isPrefixOf pattern = true := List.isPrefixOf_iff_prefix.mpr (List.prefix_refl _)
    cases pattern with
    | nil => rfl
    | cons c rest =>
      simp only [List.nil_append, find]
      rw [if_pos hp]
  | cons c rest ih =>
    obtain ⟨n, hn, hf⟩ := ih
    rw [List.cons_append]
    unfold find
    split
    · exact ⟨0, Nat.zero_le _, rfl⟩
    · refine ⟨n + 1, by simpa using hn, ?_⟩
      rw [hf]
      rfl

theorem find_eq_none (pattern : List Char) :
    ∀ (s : List Char), ¬ pattern <:+: s → find s pattern = none := by
  intro s
  induction s with
  | nil =>
    intro h
    unfold find
    split
    · rename_i hp
      exact (h (List.isPrefixOf_iff_prefix.mp hp).isInfix).elim
    · rfl
  | cons c rest ih =>
    intro h
    unfold find
    split
    · rename_i hp
      exact (h (List.isPrefixOf_iff_prefix.mp hp).isInfix).elim
    · have hrest : ¬ pattern <:+: rest := by
        intro h1
        exact h (h1.trans (List.suffix_cons c rest).isInfix)
      rw [ih hrest]
      rfl

theorem charToInt_unsigned (c : CChar) : 0 ≤ charToInt false c ∧ charToInt false c ≤ 255 := by
  unfold charToInt
  have := c.isLt
  simp only [Bool.false_and, Bool.false_eq_true, if_false]
  omega

theorem charToInt_signed (c : CChar) : -128 ≤ charToInt true c ∧ charToInt true c ≤ 127 := by
  unfold charToInt
  have := c.isLt
  split
  · rename_i h
    simp only [Bool.true_and, decide_eq_true_eq] at h
    omega
  · rename_i h
    simp only [Bool.true_and, decide_eq_true_eq] at h
    omega

theorem sum_put (f : Int → Int) :
    ∀ (m : hashmapF) (key value : Int),
      ((hashmapF.put m key value).map (fun e => e.2 * f e.1)).sum
        = (m.map (fun e => e.2 * f e.1)).sum - hashmapF.get m key * f key + value * f key := by
  intro m
  induction m with
  | nil =>
    intro key value
    simp [hashmapF.put, hashmapF.get, List.lookup]
  | cons e rest ih =>
    intro key value
    obtain ⟨k1, v1⟩ := e
    unfold hashmapF.put
    by_cases h1 : k1 = key
    · rw [if_pos h1]
      subst h1
      have hg : hashmapF.get ((k1, v1) :: rest) k1 = v1 := by
        unfold hashmapF.get
        rw [lookup_cons_eq, if_pos rfl]
        rfl
      simp only [List.map_cons, List.sum_cons, hg]
      ring
    · rw [if_neg h1]
      have h2 : ¬ key = k1 := fun e => h1 e.symm
      have hg : hashmapF.get ((k1, v1) :: rest) key = hashmapF.get rest key := by
        simp only [hashmapF.get, lookup_cons_eq, if_neg h2]
      simp only [List.map_cons, List.sum_cons, ih, hg]
      ring

theorem sum_frequencyMapHelper (f : Int → Int) (sgn : Bool) (m : hashmapF) (c : CChar) :
    ((frequencyMapHelper sgn m c).map (fun e => e.2 * f e.1)).sum
      = (m.map (fun e => e.2 * f e.1)).sum + f (charToInt sgn c) := by
  unfold frequencyMapHelper
  by_cases hc : hashmapF.containsKey m (charToInt sgn c) = true
  · simp only [hc, Bool.not_true, Bool.false_eq_true, if_false, sum_put]
    ring
  · simp only [hc, Bool.not_false, if_true, sum_put]
    have hg : hashmapF.get m (charToInt sgn c) = 0 := by
      unfold hashmapF.containsKey at hc
      unfold hashmapF.get
      cases hl : List.lookup (charToInt sgn c) m with
      | none => rfl
      | some v => rw [hl] at hc; exact (hc rfl).elim
    rw [hg]
    ring

theorem sum_countLoop (f : Int → Int) (sgn : Bool) :
    ∀ (source : List CChar) (m : hashmapF),
      ((countLoop sgn source m).map (fun e => e.2 * f e.1)).sum
        = (m.map (fun e => e.2 * f e.1)).sum + (source.map (fun c => f (charToInt sgn c))).sum := by
  intro source
  induction source with
  | nil => intro m; simp [countLoop]
  | cons c rest ih =>
    intro m
    unfold countLoop
    rw [ih, sum_frequencyMapHelper]
    simp only [List.map_cons, List.sum_cons]
    ring

theorem sum_buildFrequencyMap (f : Int → Int) (sgn : Bool) (source : List CChar) :
    ((buildFrequencyMap sgn source []).map (fun e => e.2 * f e.1)).sum
      = (source.map (fun c => f (charToInt sgn c))).sum + f PSEUDO_EOF := by
  unfold buildFrequencyMap
  rw [sum_put, sum_countLoop]
  have hg : hashmapF.get (countLoop sgn source []) PSEUDO_EOF = 0 := by
    unfold hashmapF.get
    rw [lookup_countLoop]
    have h0 : source.countP (fun c => decide (charToInt sgn c = PSEUDO_EOF)) = 0 := by
      rw [List.countP_eq_zero]
      intro c _
      simpa using charToInt_ne_PSEUDO_EOF sgn c
    rw [if_pos h0]
    rfl
  rw [hg]
  simp

theorem sum_keys_get (f : Int → Int) (map : hashmapF) (hnd : (hashmapF.keys map).Nodup) :
    ((hashmapF.keys map).map (fun k => hashmapF.get map k * f k)).sum
      = (map.map (fun e => e.2 * f e.1)).sum := by
  have h := entries_eq_self map hnd
  have h2 : (hashmapF.keys map).map (fun k => hashmapF.get map k * f k)
      = ((hashmapF.keys map).map (fun key => (key, hashmapF.get map key))).map
          (fun e => e.2 * f e.1) := by
    rw [List.map_map]
    rfl
  rw [h2, h]

theorem length_flatMap_int {α : Type} (g : α → List Char) :
    ∀ (l : List α), ((l.flatMap g).length : Int) = (l.map (fun c => ((g c).length : Int))).sum := by
  intro l
  induction l with
  | nil => rfl
  | cons c rest ih =>
    rw [List.flatMap_cons, List.length_append, List.map_cons, List.sum_cons, ← ih]
    push_cast
    rfl

theorem encode_size (sgn : Bool) (input : List CChar) (encodingMap : hashmapE) (makeFile : Bool) :
    (encode sgn input encodingMap makeFile).size
      = (input.map (fun c => ((hashmapE.subscript encodingMap (charToInt sgn c)).length : Int))).sum
        + ((hashmapE.subscript encodingMap PSEUDO_EOF).length : Int) := by
  have h : (encode sgn input encodingMap makeFile).size
      = (((encode sgn input encodingMap makeFile).str).length : Int) := by
    cases makeFile <;> simp [encode]
  rw [h, encode_str, List.length_append, ← length_flatMap_int]
  push_cast
  rfl

/-! ## The heap order of the queue -/

theorem length_swapAt (v : List HuffmanNode) (i j : Nat) : (swapAt v i j).length = v.length := by
  unfold swapAt
  split
  · simp
  · rfl

theorem keyAt_swapAt (v : List HuffmanNode) (i j : Nat) (hi : i < v.length) (hj : j < v.length)
    (k : Nat) :
    keyAt (swapAt v i j) k
      = if k = j then keyAt v i else if k = i then keyAt v j else keyAt v k := by
  have hx : v[i]? = some v[i] := List.getElem?_eq_getElem hi
  have hy : v[j]? = some v[j] := List.getElem?_eq_getElem hj
  unfold swapAt keyAt
  rw [hx, hy]
  simp only [List.getElem?_set, List.length_set]
  by_cases h1 : k = j
  · subst h1
    simp [hj, hx]
  · have h1' : ¬ j = k := fun e => h1 e.symm
    rw [if_neg h1', if_neg h1]
    by_cases h2 : k = i
    · subst h2
      simp [hi, hy]
    · have h2' : ¬ i = k := fun e => h2 e.symm
      rw [if_neg h2', if_neg h2]

theorem compare_iff (v : List HuffmanNode) (a b : Nat) (p x : HuffmanNode)
    (hp : v[a]? = some p) (hx : v[b]? = some x) :
    compare p x = true ↔ keyAt v b < keyAt v a := by
  unfold compare keyAt
  rw [hp, hx]
  simp

theorem siftUp_heap (fuel : Nat) :
    ∀ (v : List HuffmanNode) (i : Nat), i < v.length → i ≤ fuel → HeapUp v i →
      IsHeap (siftUp fuel v i) := by
  induction fuel with
  | zero =>
    intro v i _ hfuel h
    have hi0 : i = 0 := by omega
    subst hi0
    intro j hj hjl
    exact h.1 j hj hjl (by omega)
  | succ n ih =>
    intro v i hi hfuel h
    unfold siftUp
    by_cases h0 : 0 < i
    · rw [if_pos h0]
      have hpl : (i - 1) / 2 < v.length := by omega
      have hp : v[(i - 1) / 2]? = some v[(i - 1) / 2] := List.getElem?_eq_getElem hpl
      have hx : v[i]? = some v[i] := List.getElem?_eq_getElem hi
      rw [hp, hx]
      simp only
      by_cases hc : compare v[(i - 1) / 2] v[i] = true
      · rw [if_pos hc]
        have hlt := (compare_iff v _ _ _ _ hp hx).mp hc
        apply ih
        · rw [length_swapAt]; exact hpl
        · omega
        · constructor
          · intro j hj hjl hjne
            rw [length_swapAt] at hjl
            rw [keyAt_swapAt v i _ hi hpl, keyAt_swapAt v i _ hi hpl]
            rw [if_neg hjne]
            by_cases hji : j = i
            · subst hji
              rw [if_pos rfl, if_pos rfl]
              omega
            · rw [if_neg hji]
              by_cases hpj : (j - 1) / 2 = (i - 1) / 2
              · rw [if_pos hpj]
                have := h.1 j hj hjl hji
                rw [hpj] at this
                omega
              · rw [if_neg hpj]
                by_cases hpji : (j - 1) / 2 = i
                · rw [if_pos hpji]
                  exact h.2 j hj hjl hpji h0
                · rw [if_neg hpji]
                  exact h.1 j hj hjl hji
          · intro j hj hjl hpj hpos
            rw [length_swapAt] at hjl
            rw [keyAt_swapAt v i _ hi hpl, keyAt_swapAt v i _ hi hpl]
            have h1 : ¬ ((i - 1) / 2 - 1) / 2 = (i - 1) / 2 := by omega
            have h2 : ¬ ((i - 1) / 2 - 1) / 2 = i := by omega
            rw [if_neg h1, if_neg h2]
            have hjp : ¬ j = (i - 1) / 2 := by omega
            rw [if_neg hjp]
            have hgp := h.1 ((i - 1) / 2) hpos hpl (by omega)
            by_cases hji : j = i
            · rw [if_pos hji]
              exact hgp
            · rw [if_neg hji]
              have := h.1 j hj hjl hji
              rw [hpj] at this
              omega
      · rw [if_neg hc]
        have hge : ¬ keyAt v i < keyAt v ((i - 1) / 2) := fun hlt =>
          hc ((compare_iff v _ _ _ _ hp hx).mpr hlt)
        intro j hj hjl
        by_cases hji : j = i
        · subst hji
          omega
        · exact h.1 j hj hjl hji
    · rw [if_neg h0]
      intro j hj hjl
      exact h.1 j hj hjl (by omega)

theorem pqPush_heap (pq : List HuffmanNode) (x : HuffmanNode) (h : IsHeap pq) :
    IsHeap (pqPush pq x) := by
  unfold pqPush
  apply siftUp_heap
  · simp
  · omega
  · have hk : ∀ j, j < pq.length → keyAt (pq ++ [x]) j = keyAt pq j := by
      intro j hj
      unfold keyAt
      rw [List.getElem?_append_left hj]
    constructor
    · intro j hj hjl hjne
      rw [List.length_append, List.length_singleton] at hjl
      have hjlt : j < pq.length := by omega
      rw [hk j hjlt, hk _ (by omega)]
      exact h j hj hjlt
    · intro j _ hjl hpj _
      rw [List.length_append, List.length_singleton] at hjl
      omega

theorem siftDown_heap (fuel : Nat) :
    ∀ (v : List HuffmanNode) (i : Nat), i < v.length → v.length ≤ fuel + i → HeapHole v i →
      (siftDown fuel v i).1.length = v.length ∧ (siftDown fuel v i).2 < v.length ∧
      ¬ (siftDown fuel v i).2 < (v.length - 1) / 2 ∧
      HeapHole (siftDown fuel v i).1 (siftDown fuel v i).2 := by
  induction fuel with
  | zero =>
    intro v i hi hfuel _
    omega
  | succ n ih =>
    intro v i hi hfuel h
    unfold siftDown
    by_cases hlt : i < (v.length - 1) / 2
    · rw [if_pos hlt]
      have hrl : 2 * (i + 1) < v.length := by omega
      have hll : 2 * (i + 1) - 1 < v.length := by omega
      have hr : v[2 * (i + 1)]? = some v[2 * (i + 1)] := List.getElem?_eq_getElem hrl
      have hl : v[2 * (i + 1) - 1]? = some v[2 * (i + 1) - 1] := List.getElem?_eq_getElem hll
      rw [hr, hl]
      simp only
      have step : ∀ (c other : Nat), c < v.length → c = 2 * (i + 1) ∨ c = 2 * (i + 1) - 1 →
          other = 2 * (i + 1) ∨ other = 2 * (i + 1) - 1 → other ≠ c →
          keyAt v c ≤ keyAt v other →
          (siftDown n (swapAt v i c) c).1.length = v.length ∧
          (siftDown n (swapAt v i c) c).2 < v.length ∧
          ¬ (siftDown n (swapAt v i c) c).2 < (v.length - 1) / 2 ∧
          HeapHole (siftDown n (swapAt v i c) c).1 (siftDown n (swapAt v i c) c).2 := by
        intro c other hcl hc hother hne hle
        have hlen : (swapAt v i c).length = v.length := length_swapAt v i c
        have hres := ih (swapAt v i c) c (by rw [hlen]; exact hcl) (by rw [hlen]; omega) ?_
        · rw [hlen] at hres
          exact hres
        · constructor
          · intro j hj hjl hjc hpjc
            rw [hlen] at hjl
            rw [keyAt_swapAt v i c hi hcl, keyAt_swapAt v i c hi hcl]
            rw [if_neg hjc, if_neg hpjc]
            by_cases hji : j = i
            · subst hji
              rw [if_pos rfl]
              have hpne : ¬ (j - 1) / 2 = j := by omega
              rw [if_neg hpne]
              exact h.2 c (by omega) hcl (by omega) hj
            · rw [if_neg hji]
              by_cases hpji : (j - 1) / 2 = i
              · rw [if_pos hpji]
                have hjo : j = other := by omega
                rw [hjo]
                exact hle
              · rw [if_neg hpji]
                exact h.1 j hj hjl hji hpji
          · intro j hj hjl hpj hcpos
            rw [hlen] at hjl
            rw [keyAt_swapAt v i c hi hcl, keyAt_swapAt v i c hi hcl]
            have hpc : (c - 1) / 2 = i := by omega
            rw [hpc]
            have h1 : ¬ i = c := by omega
            rw [if_neg h1, if_pos rfl]
            have h2 : ¬ j = c := by omega
            have h3 : ¬ j = i := by omega
            rw [if_neg h2, if_neg h3]
            have := h.1 j hj hjl h3 (by omega)
            rw [hpj] at this
            exact this
      by_cases hc : compare v[2 * (i + 1)] v[2 * (i + 1) - 1] = true
      · rw [if_pos hc]
        have hk := (compare_iff v _ _ _ _ hr hl).mp hc
        exact step (2 * (i + 1) - 1) (2 * (i + 1)) hll (Or.inr rfl) (Or.inl rfl) (by omega)
          (by omega)
      · rw [if_neg hc]
        have hk : ¬ keyAt v (2 * (i + 1) - 1) < keyAt v (2 * (i + 1)) := fun hlt2 =>
          hc ((compare_iff v _ _ _ _ hr hl).mpr hlt2)
        exact step (2 * (i + 1)) (2 * (i + 1) - 1) hrl (Or.inl rfl) (Or.inr rfl) (by omega)
          (by omega)
    · rw [if_neg hlt]
      exact ⟨rfl, hi, hlt, h⟩

theorem heapUp_of_hole_leaf (v : List HuffmanNode) (i : Nat) (h : HeapHole v i)
    (hleaf : v.length ≤ 2 * i + 1) : HeapUp v i := by
  constructor
  · intro j hj hjl hji
    exact h.1 j hj hjl hji (by omega)
  · intro j hj hjl hpj _
    omega

theorem adjust_heap_heap (v : List HuffmanNode) (hne : v ≠ []) (h : HeapHole v 0) :
    IsHeap (adjust_heap v) := by
  have hpos : 0 < v.length := List.length_pos.mpr hne
  obtain ⟨hlen, hi, hbot, hh⟩ := siftDown_heap v.length v 0 hpos (by omega) h
  unfold adjust_heap
  simp only
  generalize siftDown v.length v 0 = r at hlen hi hbot hh
  obtain ⟨v1, i1⟩ := r
  simp only at hlen hi hbot hh ⊢
  by_cases hc : v.length % 2 = 0 ∧ i1 = (v.length - 2) / 2
  · rw [if_pos hc]
    have hcl : 2 * (i1 + 1) - 1 < v1.length := by omega
    have hi1 : i1 < v1.length := by omega
    have hl2 : (swapAt v1 i1 (2 * (i1 + 1) - 1)).length = v1.length := length_swapAt _ _ _
    have hsift := siftUp_heap v.length (swapAt v1 i1 (2 * (i1 + 1) - 1)) (2 * (i1 + 1) - 1)
      (by rw [hl2]; exact hcl) (by omega)
    apply hsift
    apply heapUp_of_hole_leaf
    · constructor
      · intro j hj hjl hjc hpjc
        rw [hl2] at hjl
        rw [keyAt_swapAt v1 i1 _ hi1 hcl, keyAt_swapAt v1 i1 _ hi1 hcl]
        rw [if_neg hjc, if_neg hpjc]
        by_cases hji : j = i1
        · subst hji
          rw [if_pos rfl]
          have hpne : ¬ (j - 1) / 2 = j := by omega
          rw [if_neg hpne]
          exact hh.2 (2 * (j + 1) - 1) (by omega) hcl (by omega) hj
        · rw [if_neg hji]
          have hpji : ¬ (j - 1) / 2 = i1 := by omega
          rw [if_neg hpji]
          exact hh.1 j hj hjl hji hpji
      · intro j hj hjl hpj _
        rw [hl2] at hjl
        omega
    · rw [hl2]
      omega
  · rw [if_neg hc]
    apply siftUp_heap v.length v1 i1 (by omega) (by omega)
    apply heapUp_of_hole_leaf _ _ hh
    have : ¬ (v.length % 2 = 0 ∧ i1 = (v.length - 2) / 2) := hc
    omega

theorem pqPop_heap (pq : List HuffmanNode) (h : IsHeap pq) : IsHeap (pqPop pq) := by
  match pq, h with
  | [], _ => intro j _ hjl; simp [pqPop] at hjl
  | [_], _ => intro j _ hjl; simp [pqPop] at hjl
  | a :: y :: rest, h =>
    unfold pqPop
    apply adjust_heap_heap _ (List.cons_ne_nil _ _)
    have hk : ∀ j, 0 < j → j < (y :: rest).length →
        keyAt ((y :: rest).getLast (by simp) :: (y :: rest).dropLast) j
          = keyAt (a :: y :: rest) j := by
      intro j hj hjl
      unfold keyAt
      obtain ⟨m, rfl⟩ : ∃ m, j = m + 1 := ⟨j - 1, by omega⟩
      rw [List.getElem?_cons_succ, List.getElem?_cons_succ]
      have hm : m < (y :: rest).length - 1 := by omega
      rw [List.getElem?_dropLast, if_pos hm]
    constructor
    · intro j hj hjl hj0 hpj0
      have hjl2 : j < (y :: rest).length := by simpa using hjl
      rw [hk j hj hjl2, hk _ (by omega) (by omega)]
      exact h j hj (by simp at hjl2 ⊢; omega)
    · intro j _ _ _ h0
      omega

theorem heap_min (v : List HuffmanNode) (h : IsHeap v) :
    ∀ (k : Nat), k < v.length → keyAt v 0 ≤ keyAt v k := by
  intro k
  induction k using Nat.strong_induction_on with
  | _ k ih =>
    intro hk
    by_cases h0 : k = 0
    · subst h0
      exact le_refl _
    · have h1 := ih ((k - 1) / 2) (by omega) (by omega)
      have h2 := h k (by omega) hk
      omega

theorem pqTop_le (v : List HuffmanNode) (h : IsHeap v) (a : HuffmanNode)
    (ha : pqTop v = some a) : ∀ x ∈ v, a.count ≤ x.count := by
  intro x hx
  obtain ⟨k, hk, hxk⟩ := List.getElem_of_mem hx
  have hmin := heap_min v h k hk
  have h0 : keyAt v 0 = a.count := by
    unfold keyAt
    cases v with
    | nil => cases ha
    | cons y rest =>
      simp only [pqTop, List.head?_cons, Option.some.injEq] at ha
      subst ha
      simp
  have h1 : keyAt v k = x.count := by
    unfold keyAt
    rw [List.getElem?_eq_getElem hk, hxk]
  omega

theorem isHeap_nil : IsHeap [] := by
  intro j _ hjl
  simp at hjl

theorem pushLeaves_heap (map : hashmapF) :
    ∀ (keys : List Int) (pq : List HuffmanNode), IsHeap pq → IsHeap (pushLeaves map keys pq) := by
  intro keys
  induction keys with
  | nil => intro pq h; exact h
  | cons k rest ih =>
    intro pq h
    unfold pushLeaves
    exact ih _ (pqPush_heap pq _ h)

theorem merge_step (pq : List HuffmanNode) (h : IsHeap pq) (hlen : 1 < pq.length) :
    ∃ a b, pqTop pq = some a ∧ pqTop (pqPop pq) = some b ∧
      (∀ x ∈ pq, a.count ≤ x.count) ∧ (∀ x ∈ pqPop pq, b.count ≤ x.count) ∧
      (a :: pqPop pq).Perm pq ∧ (b :: pqPop (pqPop pq)).Perm (pqPop pq) ∧
      IsHeap (pqPush (pqPop (pqPop pq)) (.node NOT_A_CHAR (a.count + b.count) a b)) := by
  match pq, hlen with
  | a :: rest, hlen =>
    have hrest : rest ≠ [] := by
      intro h0; subst h0; simp at hlen
    have hp1 := pqPop_perm a rest
    have hh1 := pqPop_heap (a :: rest) h
    generalize pqPop (a :: rest) = p1 at hp1 hh1
    match p1, hp1 with
    | [], hp1 => exact (hrest hp1.symm.eq_nil).elim
    | b :: r1, hp1 =>
      refine ⟨a, b, rfl, rfl, pqTop_le _ h a rfl, pqTop_le _ hh1 b rfl, hp1.cons a,
        (pqPop_perm b r1).cons b, ?_⟩
      exact pqPush_heap _ _ (pqPop_heap _ hh1)

theorem mergeLoop_ordered (fuel : Nat) :
    ∀ (pq : List HuffmanNode), IsHeap pq → (∀ t ∈ pq, MergeOrdered t) →
      ∀ res, mergeLoop fuel pq = some res → ∀ t ∈ res, MergeOrdered t := by
  induction fuel with
  | zero =>
    intro pq _ hall res hres
    simp only [mergeLoop, Option.some.injEq] at hres
    subst hres
    exact hall
  | succ n ih =>
    intro pq h hall res hres
    unfold mergeLoop at hres
    by_cases hlen : 1 < pq.length
    · rw [if_pos hlen] at hres
      obtain ⟨a, b, ha, hb, hamin, _, hpa, hpb, hq⟩ := merge_step pq h hlen
      rw [ha] at hres
      simp only at hres
      rw [hb] at hres
      simp only at hres
      have hbpq : b ∈ pq :=
        hpa.subset (List.mem_cons_of_mem _ (hpb.subset (List.mem_cons_self _ _)))
      have hapq : a ∈ pq := hpa.subset (List.mem_cons_self _ _)
      apply ih _ hq _ res hres
      intro t ht
      rcases List.mem_cons.mp ((pqPush_perm _ _).subset ht) with h1 | h1
      · rw [h1]
        exact ⟨fun _ => hamin b hbpq, hall a hapq, hall b hbpq⟩
      · exact hall t (hpa.subset (List.mem_cons_of_mem _
          (hpb.subset (List.mem_cons_of_mem _ h1))))
    · rw [if_neg hlen] at hres
      simp only [Option.some.injEq] at hres
      subst hres
      exact hall

theorem buildEncodingTree_ordered (map : hashmapF) (t : HuffmanNode)
    (ht : buildEncodingTree map = some t) : MergeOrdered t := by
  unfold buildEncodingTree at ht
  simp only at ht
  have hperm := pushLeaves_perm map (hashmapF.keys map) []
  have hheap := pushLeaves_heap map (hashmapF.keys map) [] isHeap_nil
  generalize pushLeaves map (hashmapF.keys map) [] = pq at ht hperm hheap
  have hall : ∀ u ∈ pq, MergeOrdered u := by
    intro u hu
    have hu2 := hperm.subset hu
    rw [List.append_nil] at hu2
    obtain ⟨k, _, rfl⟩ := List.mem_map.mp hu2
    exact ⟨fun _ => le_refl _, trivial, trivial⟩
  cases hm : mergeLoop pq.length pq with
  | none => rw [hm] at ht; cases ht
  | some res =>
    rw [hm] at ht
    simp only at ht
    have hmem : t ∈ res := by
      cases res with
      | nil => cases ht
      | cons y rest =>
        simp only [pqTop, List.head?_cons, Option.some.injEq] at ht
        subst ht
        exact List.mem_cons_self _ _
    exact mergeLoop_ordered pq.length pq hheap hall res hm t hmem

/-! ## Optimality of the merge order -/

theorem isProfile_ne_nil {d : Nat} {ds : List Nat} (h : IsProfile d ds) : ds ≠ [] := by
  induction h with
  | leaf d => simp
  | node d l r _ _ ihl _ =>
    intro h0
    exact ihl (List.append_eq_nil.mp h0).1

theorem isProfile_length_pos {d : Nat} {ds : List Nat} (h : IsProfile d ds) : 1 ≤ ds.length :=
  List.length_pos.mpr (isProfile_ne_nil h)

theorem isProfile_singleton {d : Nat} {ds : List Nat} (h : IsProfile d ds)
    (hlen : ds.length = 1) : ds = [d] := by
  cases h with
  | leaf => rfl
  | node _ l r hl hr =>
    have h1 := isProfile_length_pos hl
    have h2 := isProfile_length_pos hr
    rw [List.length_append] at hlen
    omega

theorem isProfile_deepest_pair {d : Nat} {ds : List Nat} (h : IsProfile d ds) :
    2 ≤ ds.length →
      ∃ l r k, ds = l ++ k :: k :: r ∧ d < k ∧ (∀ x ∈ ds, x ≤ k) ∧
        IsProfile d (l ++ (k - 1) :: r) := by
  induction h with
  | leaf d =>
    intro hlen
    simp at hlen
  | node d l0 r0 hl hr ihl ihr =>
    intro _
    have hl1 := isProfile_length_pos hl
    have hr1 := isProfile_length_pos hr
    by_cases hll : 2 ≤ l0.length
    · obtain ⟨l, r, k, hds, hk, hmax, hcol⟩ := ihl hll
      by_cases hrmax : ∀ x ∈ r0, x ≤ k
      · refine ⟨l, r ++ r0, k, ?_, by omega, ?_, ?_⟩
        · rw [hds]; simp
        · intro x hx
          rcases List.mem_append.mp hx with hx | hx
          · exact hmax x hx
          · exact hrmax x hx
        · have := IsProfile.node d _ _ hcol hr
          simpa using this
      · have hrl : 2 ≤ r0.length := by
          by_contra hlt
          have h1 : r0.length = 1 := by omega
          rw [isProfile_singleton hr h1] at hrmax
          apply hrmax
          intro x hx
          rw [List.mem_singleton.mp hx]
          omega
        obtain ⟨l2, r2, k2, hds2, hk2, hmax2, hcol2⟩ := ihr hrl
        have hkk : k ≤ k2 := by
          by_contra hlt
          apply hrmax
          intro x hx
          have := hmax2 x hx
          omega
        refine ⟨l0 ++ l2, r2, k2, ?_, by omega, ?_, ?_⟩
        · rw [hds2]; simp
        · intro x hx
          rcases List.mem_append.mp hx with hx | hx
          · have := hmax x hx; omega
          · exact hmax2 x hx
        · have := IsProfile.node d _ _ hl hcol2
          simpa using this
    · have hl0 : l0 = [d + 1] := isProfile_singleton hl (by omega)
      by_cases hrl : 2 ≤ r0.length
      · obtain ⟨l2, r2, k2, hds2, hk2, hmax2, hcol2⟩ := ihr hrl
        refine ⟨l0 ++ l2, r2, k2, ?_, by omega, ?_, ?_⟩
        · rw [hds2]; simp
        · intro x hx
          rcases List.mem_append.mp hx with hx | hx
          · rw [hl0] at hx
            rw [List.mem_singleton.mp hx]
            omega
          · exact hmax2 x hx
        · have := IsProfile.node d _ _ hl hcol2
          simpa using this
      · have hr0 : r0 = [d + 1] := isProfile_singleton hr (by omega)
        refine ⟨[], [], d + 1, ?_, by omega, ?_, ?_⟩
        · rw [hl0, hr0]; rfl
        · intro x hx
          rw [hl0, hr0] at hx
          simp at hx
          omega
        · exact IsProfile.leaf d

theorem pcost_append (p q : List (Int × Nat)) : pcost (p ++ q) = pcost p + pcost q := by
  simp [pcost]

theorem pcost_cons (e : Int × Nat) (q : List (Int × Nat)) :
    pcost (e :: q) = e.1 * (e.2 : Int) + pcost q := by
  simp [pcost]

theorem move_min (s1 s2 : List (Int × Nat)) (x : Int) (k : Nat) (a : Int)
    (ha : a ∈ (s1 ++ (x, k) :: s2).map Prod.fst)
    (hmin : ∀ e ∈ s1 ++ (x, k) :: s2, a ≤ e.1)
    (hmax : ∀ e ∈ s1 ++ (x, k) :: s2, e.2 ≤ k) :
    ∃ t1 t2, t1.map Prod.snd = s1.map Prod.snd ∧ t2.map Prod.snd = s2.map Prod.snd ∧
      (a :: (t1 ++ t2).map Prod.fst).Perm ((s1 ++ (x, k) :: s2).map Prod.fst) ∧
      pcost (t1 ++ (a, k) :: t2) ≤ pcost (s1 ++ (x, k) :: s2) := by
  have hax : a ≤ x := hmin (x, k) (by simp)
  by_cases hx : a = x
  · subst hx
    refine ⟨s1, s2, rfl, rfl, ?_, le_refl _⟩
    simp only [List.map_append, List.map_cons]
    exact List.perm_middle.symm
  · obtain ⟨e, he, hea⟩ := List.mem_map.mp ha
    rcases List.mem_append.mp he with he1 | he2
    · obtain ⟨u, v, huv⟩ := List.append_of_mem he1
      obtain ⟨a', d⟩ := e
      simp only at hea
      subst hea
      have hdk : d ≤ k := hmax (a', d) he
      refine ⟨u ++ (x, d) :: v, s2, ?_, rfl, ?_, ?_⟩
      · rw [huv]; simp
      · rw [huv]
        simp only [List.map_append, List.map_cons, List.append_assoc, List.cons_append]
        rw [List.perm_iff_count]
        intro z
        simp only [List.count_cons, List.count_append]
        omega
      · rw [huv]
        simp only [pcost_append, pcost_cons]
        have h1 : (0 : Int) ≤ (x - a') * ((k : Int) - (d : Int)) :=
          mul_nonneg (by omega) (by omega)
        nlinarith [h1]
    · rcases List.mem_cons.mp he2 with he3 | he3
      · exfalso
        apply hx
        rw [← hea, he3]
      · obtain ⟨u, v, huv⟩ := List.append_of_mem he3
        obtain ⟨a', d⟩ := e
        simp only at hea
        subst hea
        have hdk : d ≤ k := hmax (a', d) he
        refine ⟨s1, u ++ (x, d) :: v, rfl, ?_, ?_, ?_⟩
        · rw [huv]; simp
        · rw [huv]
          simp only [List.map_append, List.map_cons, List.append_assoc, List.cons_append]
          rw [List.perm_iff_count]
          intro z
          simp only [List.count_cons, List.count_append]
          omega
        · rw [huv]
          simp only [pcost_append, pcost_cons]
          have h1 : (0 : Int) ≤ (x - a') * ((k : Int) - (d : Int)) :=
            mul_nonneg (by omega) (by omega)
          nlinarith [h1]

theorem exchange (p : List (Int × Nat)) (a b : Int) (rest : List Int)
    (hprof : IsProfile 0 (p.map Prod.snd)) (hperm : (p.map Prod.fst).Perm (a :: b :: rest))
    (hab : a ≤ b) (hrest : ∀ x ∈ rest, b ≤ x) :
    ∃ q, IsProfile 0 (q.map Prod.snd) ∧ (q.map Prod.fst).Perm ((a + b) :: rest) ∧
      pcost q + a + b ≤ pcost p := by
  have hlen : 2 ≤ (p.map Prod.snd).length := by
    have := hperm.length_eq
    simp only [List.length_map, List.length_cons] at this ⊢
    omega
  obtain ⟨l, r, k, hds, hk, hmaxd, hcol⟩ := isProfile_deepest_pair hprof hlen
  obtain ⟨s1, s2x, hp, hs1, hs2x⟩ := List.map_eq_append_iff.mp hds
  obtain ⟨ex, s2y, hs2x', hex, hs2y⟩ := List.map_eq_cons_iff.mp hs2x
  obtain ⟨ey, s2, hs2y', hey, hs2⟩ := List.map_eq_cons_iff.mp hs2y
  obtain ⟨x, kx⟩ := ex
  obtain ⟨y, ky⟩ := ey
  simp only at hex hey
  subst kx
  subst ky
  subst hs2y'
  subst hs2x'
  subst hp
  have hmax : ∀ e ∈ s1 ++ (x, k) :: (y, k) :: s2, e.2 ≤ k := fun e he =>
    hmaxd e.2 (List.mem_map_of_mem Prod.snd he)
  have hmina : ∀ e ∈ s1 ++ (x, k) :: (y, k) :: s2, a ≤ e.1 := by
    intro e he
    have h1 : e.1 ∈ a :: b :: rest := hperm.subset (List.mem_map_of_mem Prod.fst he)
    rcases List.mem_cons.mp h1 with h2 | h2
    · omega
    · rcases List.mem_cons.mp h2 with h3 | h3
      · omega
      · have := hrest _ h3
        omega
  have hain : a ∈ (s1 ++ (x, k) :: (y, k) :: s2).map Prod.fst :=
    hperm.symm.subset (List.mem_cons_self _ _)
  obtain ⟨t1, t2y, ht1, ht2y, hperm1, hcost1⟩ :=
    move_min s1 ((y, k) :: s2) x k a hain hmina hmax
  rw [List.map_cons] at ht2y
  obtain ⟨ey', t2, ht2y', hey', ht2⟩ := List.map_eq_cons_iff.mp ht2y
  obtain ⟨y', ky'⟩ := ey'
  simp only at hey'
  subst ky'
  subst ht2y'
  have hpermQ : ((t1 ++ (y', k) :: t2).map Prod.fst).Perm (b :: rest) :=
    (hperm1.trans hperm).cons_inv
  have hmaxQ : ∀ e ∈ t1 ++ (y', k) :: t2, e.2 ≤ k := by
    intro e he
    have h1 : e.2 ∈ (t1 ++ (y', k) :: t2).map Prod.snd := List.mem_map_of_mem Prod.snd he
    rw [List.map_append, List.map_cons, ht1, ht2] at h1
    apply hmaxd
    rw [List.map_append, List.map_cons, List.map_cons]
    rcases List.mem_append.mp h1 with h2 | h2
    · exact List.mem_append_left _ h2
    · exact List.mem_append_right _ (List.mem_cons_of_mem _ h2)
  have hminb : ∀ e ∈ t1 ++ (y', k) :: t2, b ≤ e.1 := by
    intro e he
    have h1 : e.1 ∈ b :: rest := hpermQ.subset (List.mem_map_of_mem Prod.fst he)
    rcases List.mem_cons.mp h1 with h2 | h2
    · omega
    · exact hrest _ h2
  have hbin : b ∈ (t1 ++ (y', k) :: t2).map Prod.fst :=
    hpermQ.symm.subset (List.mem_cons_self _ _)
  obtain ⟨u1, u2, hu1, hu2, hperm2, hcost2⟩ := move_min t1 t2 y' k b hbin hminb hmaxQ
  have hpermR : ((u1 ++ u2).map Prod.fst).Perm rest := (hperm2.trans hpermQ).cons_inv
  refine ⟨u1 ++ (a + b, k - 1) :: u2, ?_, ?_, ?_⟩
  · rw [List.map_append, List.map_cons, hu1, hu2, ht1, ht2, hs1, hs2]
    exact hcol
  · rw [List.map_append, List.map_cons]
    rw [List.map_append] at hpermR
    exact List.perm_middle.trans (hpermR.cons _)
  · simp only [pcost_append, pcost_cons] at hcost1 hcost2 ⊢
    have hk1 : ((k - 1 : Nat) : Int) = (k : Int) - 1 := by omega
    rw [hk1]
    nlinarith [hcost1, hcost2]

theorem pcost_single_profile (p : List (Int × Nat)) (hprof : IsProfile 0 (p.map Prod.snd))
    (hlen : p.length = 1) : pcost p = 0 := by
  have h1 := isProfile_singleton hprof (by simpa using hlen)
  match p, hlen, h1 with
  | [(w, d)], _, h1 =>
    simp only [List.map_cons, List.map_nil, List.cons.injEq, and_true] at h1
    subst h1
    simp [pcost]

theorem mergeLoop_lower_bound (fuel : Nat) :
    ∀ (pq : List HuffmanNode), IsHeap pq → pq.length ≤ fuel + 1 →
      ∀ t, mergeLoop fuel pq = some [t] →
        ∀ (p : List (Int × Nat)), IsProfile 0 (p.map Prod.snd) →
          (p.map Prod.fst).Perm (pq.map HuffmanNode.count) →
          icost t ≤ (pq.map icost).sum + pcost p := by
  induction fuel with
  | zero =>
    intro pq _ hlen t hres p hprof hperm
    simp only [mergeLoop, Option.some.injEq] at hres
    subst hres
    have hp1 : p.length = 1 := by simpa using hperm.length_eq
    rw [pcost_single_profile p hprof hp1]
    simp
  | succ n ih =>
    intro pq h hlen t hres p hprof hperm
    unfold mergeLoop at hres
    by_cases hlong : 1 < pq.length
    · rw [if_pos hlong] at hres
      obtain ⟨a, b, ha, hb, hamin, hbmin, hpa, hpb, hq⟩ := merge_step pq h hlong
      rw [ha] at hres
      simp only at hres
      rw [hb] at hres
      simp only at hres
      have hpush := pqPush_perm (pqPop (pqPop pq)) (.node NOT_A_CHAR (a.count + b.count) a b)
      generalize pqPush (pqPop (pqPop pq)) (.node NOT_A_CHAR (a.count + b.count) a b) = q3
        at hres hq hpush
      have hpq : pq.Perm (a :: b :: pqPop (pqPop pq)) := hpa.symm.trans (hpb.symm.cons a)
      have hbpq : b ∈ pq := hpq.symm.subset (by simp)
      have hexch := exchange p a.count b.count ((pqPop (pqPop pq)).map HuffmanNode.count)
        hprof (hperm.trans (hpq.map HuffmanNode.count)) (hamin b hbpq) (by
          intro x hx
          obtain ⟨y, hy, rfl⟩ := List.mem_map.mp hx
          exact hbmin y (hpb.subset (List.mem_cons_of_mem _ hy)))
      obtain ⟨q, hqprof, hqperm, hqcost⟩ := hexch
      have hlen3 : q3.length ≤ n + 1 := by
        have h1 := hpush.length_eq
        have h2 := hpq.length_eq
        simp only [List.length_cons] at h1 h2
        omega
      have hq3count : (q.map Prod.fst).Perm (q3.map HuffmanNode.count) :=
        hqperm.trans (hpush.map HuffmanNode.count).symm
      have hih := ih q3 hq hlen3 t hres q hqprof hq3count
      have hs3 : (q3.map icost).sum
          = a.count + b.count + icost a + icost b + ((pqPop (pqPop pq)).map icost).sum := by
        rw [(hpush.map icost).sum_eq]
        simp only [List.map_cons, List.sum_cons, icost]
        rw [if_neg (not_not.mpr rfl)]
      have hs : (pq.map icost).sum = icost a + icost b + ((pqPop (pqPop pq)).map icost).sum := by
        rw [(hpq.map icost).sum_eq]
        simp only [List.map_cons, List.sum_cons]
        ring
      rw [hs3] at hih
      rw [hs]
      linarith
    · rw [if_neg hlong] at hres
      simp only [Option.some.injEq] at hres
      subst hres
      have hp1 : p.length = 1 := by simpa using hperm.length_eq
      rw [pcost_single_profile p hprof hp1]
      simp

theorem pcost_profile_built (w : Int → Int) :
    ∀ (t : HuffmanNode), Built t → (∀ e ∈ leaves t, w e.1 = e.2) →
      ∀ (d : Nat), pcost (profile w t d) = icost t + (d : Int) * t.count := by
  intro t
  induction t with
  | null => intro h; exact h.elim
  | node ch cnt z o ihz iho =>
    intro hb hw d
    unfold Built at hb
    unfold profile icost
    unfold leaves at hw
    by_cases hc : ch = NOT_A_CHAR
    · rw [if_pos hc] at hb
      rw [if_neg (not_not.mpr hc)] at hw ⊢
      rw [if_neg (not_not.mpr hc)]
      rw [pcost_append, ihz hb.2.2.1 (fun e he => hw e (List.mem_append_left _ he)),
        iho hb.2.2.2.1 (fun e he => hw e (List.mem_append_right _ he))]
      have hcnt : (HuffmanNode.node ch cnt z o).count = z.count + o.count := hb.2.2.2.2
      rw [hcnt]
      have hcnt2 : cnt = z.count + o.count := hb.2.2.2.2
      rw [hcnt2]
      push_cast
      ring
    · rw [if_pos hc] at hw ⊢
      rw [if_pos hc]
      have := hw (ch, cnt) (List.mem_singleton.mpr rfl)
      simp only at this
      simp [pcost, this, HuffmanNode.count]
      ring

theorem isProfile_profile (w : Int → Int) :
    ∀ (u : HuffmanNode), FullTree u → ∀ (d : Nat), IsProfile d ((profile w u d).map Prod.snd) := by
  intro u
  induction u with
  | null => intro h; exact h.elim
  | node ch cnt z o ihz iho =>
    intro hf d
    unfold FullTree at hf
    unfold profile
    by_cases hc : ch = NOT_A_CHAR
    · rw [if_pos hc] at hf
      rw [if_neg (not_not.mpr hc), List.map_append]
      exact IsProfile.node d _ _ (ihz hf.2.2.1 (d + 1)) (iho hf.2.2.2 (d + 1))
    · rw [if_pos hc]
      exact IsProfile.leaf d

theorem profile_weights (w : Int → Int) :
    ∀ (u : HuffmanNode) (d : Nat),
      (profile w u d).map Prod.fst = (leaves u).map (fun e => w e.1) := by
  intro u
  induction u with
  | null => intro d; rfl
  | node ch cnt z o ihz iho =>
    intro d
    unfold profile leaves
    by_cases hc : ch = NOT_A_CHAR
    · rw [if_neg (not_not.mpr hc), if_neg (not_not.mpr hc), List.map_append, List.map_append,
        ihz, iho]
    · rw [if_pos hc, if_pos hc]
      rfl

theorem pcost_profile_codes (w : Int → Int) :
    ∀ (u : HuffmanNode) (str : List Char),
      ((codes u str).map (fun e => w e.1 * (e.2.length : Int))).sum
        = pcost (profile w u str.length) := by
  intro u
  induction u with
  | null => intro str; rfl
  | node ch cnt z o ihz iho =>
    intro str
    unfold codes profile
    by_cases hc : ch = NOT_A_CHAR
    · rw [if_neg (not_not.mpr hc), if_neg (not_not.mpr hc), List.map_append, List.sum_append,
        ihz, iho, pcost_append]
      simp
    · rw [if_pos hc, if_pos hc]
      simp [pcost]

theorem totalCost_eq_pcost (map : hashmapF) (u : HuffmanNode)
    (hk : ((leaves u).map Prod.fst).Perm (hashmapF.keys map))
    (hnd : (hashmapF.keys map).Nodup) :
    totalCost map (buildEncodingMap u) = pcost (profile (hashmapF.get map) u 0) := by
  have hnd2 : ((leaves u).map Prod.fst).Nodup := hk.nodup_iff.mpr hnd
  unfold totalCost
  have h1 : (hashmapF.keys map).Perm ((codes u []).map Prod.fst) := by
    rw [codes_keys]
    exact hk.symm
  rw [(h1.map _).sum_eq, List.map_map]
  have h2 : (codes u []).map ((fun k => hashmapF.get map k
        * ((hashmapE.subscript (buildEncodingMap u) k).length : Int)) ∘ Prod.fst)
      = (codes u []).map (fun e => hashmapF.get map e.1 * (e.2.length : Int)) := by
    apply List.map_congr_left
    intro e he
    obtain ⟨k, q⟩ := e
    have := lookup_buildEncodingMap_of_mem u hnd2 k q he
    simp [hashmapE.subscript, this]
  rw [h2]
  exact pcost_profile_codes (hashmapF.get map) u []

theorem buildEncodingTree_mergeLoop (map : hashmapF) (hv : ValidTable map) (hne : map ≠ []) :
    ∃ t, buildEncodingTree map = some t ∧
      mergeLoop (pushLeaves map (hashmapF.keys map) []).length
        (pushLeaves map (hashmapF.keys map) []) = some [t] ∧
      Built t ∧ (leaves t).Perm map := by
  have hnot : ∀ k ∈ hashmapF.keys map, k ≠ NOT_A_CHAR := fun k hk e => hv.2 (e ▸ hk)
  have hperm := pushLeaves_perm map (hashmapF.keys map) []
  rw [List.append_nil] at hperm
  unfold buildEncodingTree
  simp only
  generalize pushLeaves map (hashmapF.keys map) [] = pq at hperm
  have hpqne : pq ≠ [] := by
    intro h0
    subst h0
    have h1 := hperm.symm.eq_nil
    have h2 : hashmapF.keys map = [] := List.map_eq_nil_iff.mp h1
    exact hne (List.map_eq_nil_iff.mp h2)
  have hall : ∀ t ∈ pq, Built t := by
    intro t ht
    obtain ⟨k, hk, rfl⟩ := List.mem_map.mp (hperm.subset ht)
    unfold Built
    rw [if_neg (hnot k hk)]
    exact ⟨rfl, rfl⟩
  obtain ⟨t, ht1, ht2, ht3⟩ := mergeLoop_spec pq.length pq hpqne (Nat.le_succ _) hall
  refine ⟨t, ?_, ht1, ht2, ?_⟩
  · rw [ht1]
    rfl
  · refine ht3.trans ((hperm.flatMap_right leaves).trans ?_)
    rw [leaves_leafNodes map _ hnot, entries_eq_self map hv.1]

theorem initial_queue_costs (map : hashmapF) (hv : ValidTable map) :
    ((pushLeaves map (hashmapF.keys map) []).map icost).sum = 0 ∧
    ((pushLeaves map (hashmapF.keys map) []).map HuffmanNode.count).Perm
      ((hashmapF.keys map).map (hashmapF.get map)) := by
  have hnot : ∀ k ∈ hashmapF.keys map, k ≠ NOT_A_CHAR := fun k hk e => hv.2 (e ▸ hk)
  have hperm := pushLeaves_perm map (hashmapF.keys map) []
  rw [List.append_nil] at hperm
  constructor
  · rw [(hperm.map icost).sum_eq, List.map_map]
    apply List.sum_eq_zero
    intro x hx
    obtain ⟨k, hk, rfl⟩ := List.mem_map.mp hx
    simp [icost, hnot k hk]
  · refine (hperm.map HuffmanNode.count).trans ?_
    rw [List.map_map]
    exact List.Perm.of_eq (List.map_congr_left (fun k _ => rfl))

theorem prefixFree_codes_ne_nil (a b : Int × List Char) (rest : List (Int × List Char))
    (h : PrefixFree (a :: b :: rest)) : ∀ e ∈ a :: b :: rest, e.2 ≠ [] := by
  intro e he hnil
  unfold PrefixFree at h
  rw [List.pairwise_cons] at h
  rcases List.mem_cons.mp he with he1 | he2
  · subst he1
    exact (h.1 b (List.mem_cons_self _ _)).1 (by rw [hnil]; exact List.nil_prefix)
  · exact (h.1 e he2).2 (by rw [hnil]; exact List.nil_prefix)

theorem stripHead_total (s : List (Int × List Char)) (hne : ∀ e ∈ s, e.2 ≠ []) :
    ((s.map stripHead).map (fun e => e.2.length)).sum + s.length
      = (s.map (fun e => e.2.length)).sum := by
  induction s with
  | nil => rfl
  | cons e rest ih =>
    have h1 := hne e (List.mem_cons_self _ _)
    have h2 := ih (fun x hx => hne x (List.mem_cons_of_mem _ hx))
    obtain ⟨w, c⟩ := e
    cases c with
    | nil => exact absurd rfl h1
    | cons x xs =>
      simp only [List.map_cons, List.sum_cons, List.length_cons, stripHead, List.tail_cons] at h2 ⊢
      omega

theorem stripHead_cost (d : Nat) (s : List (Int × List Char)) (hne : ∀ e ∈ s, e.2 ≠ []) :
    ((s.map stripHead).map (fun e => e.1 * (((d + 1 : Nat) : Int) + (e.2.length : Int)))).sum
      = (s.map (fun e => e.1 * ((d : Int) + (e.2.length : Int)))).sum := by
  induction s with
  | nil => rfl
  | cons e rest ih =>
    have h1 := hne e (List.mem_cons_self _ _)
    have h2 := ih (fun x hx => hne x (List.mem_cons_of_mem _ hx))
    obtain ⟨w, c⟩ := e
    cases c with
    | nil => exact absurd rfl h1
    | cons x xs =>
      simp only [List.map_cons, List.sum_cons, List.length_cons, stripHead, List.tail_cons] at h2 ⊢
      rw [h2]
      push_cast
      ring

theorem stripHead_cost_le (d : Nat) (s : List (Int × List Char)) (hne : ∀ e ∈ s, e.2 ≠ [])
    (hw : ∀ e ∈ s, 0 ≤ e.1) :
    ((s.map stripHead).map (fun e => e.1 * ((d : Int) + (e.2.length : Int)))).sum
      ≤ (s.map (fun e => e.1 * ((d : Int) + (e.2.length : Int)))).sum := by
  induction s with
  | nil => exact le_refl _
  | cons e rest ih =>
    have h1 := hne e (List.mem_cons_self _ _)
    have h2 := ih (fun x hx => hne x (List.mem_cons_of_mem _ hx))
      (fun x hx => hw x (List.mem_cons_of_mem _ hx))
    have h3 := hw e (List.mem_cons_self _ _)
    obtain ⟨w, c⟩ := e
    cases c with
    | nil => exact absurd rfl h1
    | cons x xs =>
      simp only [List.map_cons, List.sum_cons, List.length_cons, stripHead, List.tail_cons] at h2 h3 ⊢
      push_cast
      nlinarith

theorem prefixFree_stripHead (c : Char) (s : List (Int × List Char))
    (hhead : ∀ e ∈ s, e.2.head? = some c) (h : PrefixFree s) : PrefixFree (s.map stripHead) := by
  unfold PrefixFree at h ⊢
  rw [List.pairwise_map]
  refine h.imp_of_mem ?_
  intro a b ha hb hab
  obtain ⟨wa, ca⟩ := a
  obtain ⟨wb, cb⟩ := b
  have h1 := hhead _ ha
  have h2 := hhead _ hb
  cases ca with
  | nil => simp at h1
  | cons x xs =>
    cases cb with
    | nil => simp at h2
    | cons y ys =>
      simp only [List.head?_cons, Option.some.injEq] at h1 h2
      subst h1
      subst h2
      simp only [stripHead, List.tail_cons]
      simp only [List.cons_prefix_cons, true_and] at hab
      exact hab

theorem prefixFree_profile (n : Nat) :
    ∀ (l : List (Int × List Char)), (l.map (fun e => e.2.length)).sum ≤ n → l ≠ [] →
      (∀ e ∈ l, 0 ≤ e.1) → (∀ e ∈ l, ∀ c ∈ e.2, c = '0' ∨ c = '1') → PrefixFree l →
      ∀ d : Nat, ∃ p : List (Int × Nat), IsProfile d (p.map Prod.snd) ∧
        (p.map Prod.fst).Perm (l.map Prod.fst) ∧
        pcost p ≤ (l.map (fun e => e.1 * ((d : Int) + (e.2.length : Int)))).sum := by
  induction n using Nat.strong_induction_on with
  | _ n ih =>
    intro l htot hne hw hbin hpf d
    match l, hne with
    | [e], _ =>
      refine ⟨[(e.1, d)], IsProfile.leaf d, List.Perm.refl _, ?_⟩
      have h0 := hw e (List.mem_singleton.mpr rfl)
      have h1 : (0 : Int) ≤ (e.2.length : Int) := Int.ofNat_nonneg _
      simp only [pcost, List.map_cons, List.map_nil, List.sum_cons, List.sum_nil, add_zero]
      nlinarith
    | a :: b :: rest, _ =>
      have hcodes := prefixFree_codes_ne_nil a b rest hpf
      have hne2 : a :: b :: rest ≠ [] := List.cons_ne_nil _ _
      generalize a :: b :: rest = l at htot hw hbin hpf hcodes hne2
      have aux : ∀ (c : Char) (s : List (Int × List Char)), (∀ e ∈ s, e ∈ l) →
          (∀ e ∈ s, e.2.head? = some c) → PrefixFree s → s ≠ [] →
          (s.map (fun e => e.2.length)).sum ≤ n →
          ∀ d1 : Nat, ∃ p : List (Int × Nat), IsProfile d1 (p.map Prod.snd) ∧
            (p.map Prod.fst).Perm (s.map Prod.fst) ∧
            pcost p ≤ ((s.map stripHead).map
              (fun e => e.1 * ((d1 : Int) + (e.2.length : Int)))).sum := by
        intro c s hsub hhead hpfs hsne hstot d1
        have htotal := stripHead_total s (fun e he => hcodes e (hsub e he))
        have hlen : 0 < s.length := List.length_pos.mpr hsne
        obtain ⟨p, hp1, hp2, hp3⟩ := ih ((s.map stripHead).map (fun e => e.2.length)).sum
          (by omega) (s.map stripHead) (le_refl _)
          (by intro h0; exact hsne (List.map_eq_nil_iff.mp h0))
          (by
            intro e he
            obtain ⟨e1, he1, rfl⟩ := List.mem_map.mp he
            exact hw e1 (hsub e1 he1))
          (by
            intro e he x hx
            obtain ⟨e1, he1, rfl⟩ := List.mem_map.mp he
            exact hbin e1 (hsub e1 he1) x (List.mem_of_mem_tail hx))
          (prefixFree_stripHead c s hhead hpfs) d1
        refine ⟨p, hp1, ?_, hp3⟩
        have hfst : (s.map stripHead).map Prod.fst = s.map Prod.fst := by
          rw [List.map_map]
          rfl
        rw [← hfst]
        exact hp2
      have hfilter : l.filter (fun x => !decide (x.2.head? = some '0'))
          = l.filter (fun x => decide (x.2.head? = some '1')) := by
        apply List.filter_congr
        intro e he
        have h1 := hcodes e he
        have h2 := hbin e he
        obtain ⟨w, c⟩ := e
        cases c with
        | nil => exact absurd rfl h1
        | cons x xs =>
          rcases h2 x (List.mem_cons_self _ _) with hx | hx <;> subst hx <;> simp
      have hperm : (l.filter (fun x => decide (x.2.head? = some '0'))
          ++ l.filter (fun x => decide (x.2.head? = some '1'))).Perm l := by
        rw [← hfilter]
        exact List.filter_append_perm _ l
      have hsub0 : ∀ e ∈ l.filter (fun x => decide (x.2.head? = some '0')), e ∈ l :=
        fun e he => (List.mem_filter.mp he).1
      have hsub1 : ∀ e ∈ l.filter (fun x => decide (x.2.head? = some '1')), e ∈ l :=
        fun e he => (List.mem_filter.mp he).1
      have hhead0 : ∀ e ∈ l.filter (fun x => decide (x.2.head? = some '0')),
          e.2.head? = some '0' := fun e he => of_decide_eq_true (List.mem_filter.mp he).2
      have hhead1 : ∀ e ∈ l.filter (fun x => decide (x.2.head? = some '1')),
          e.2.head? = some '1' := fun e he => of_decide_eq_true (List.mem_filter.mp he).2
      have hpf0 : PrefixFree (l.filter (fun x => decide (x.2.head? = some '0'))) :=
        List.Pairwise.filter _ hpf
      have hpf1 : PrefixFree (l.filter (fun x => decide (x.2.head? = some '1'))) :=
        List.Pairwise.filter _ hpf
      have htotal : ((l.filter (fun x => decide (x.2.head? = some '0'))).map
            (fun e => e.2.length)).sum
          + ((l.filter (fun x => decide (x.2.head? = some '1'))).map (fun e => e.2.length)).sum
          = (l.map (fun e => e.2.length)).sum := by
        rw [← (hperm.map (fun e => e.2.length)).sum_eq, List.map_append, List.sum_append]
      have hcost : ((l.filter (fun x => decide (x.2.head? = some '0'))).map
            (fun e => e.1 * ((d : Int) + (e.2.length : Int)))).sum
          + ((l.filter (fun x => decide (x.2.head? = some '1'))).map
            (fun e => e.1 * ((d : Int) + (e.2.length : Int)))).sum
          = (l.map (fun e => e.1 * ((d : Int) + (e.2.length : Int)))).sum := by
        rw [← (hperm.map (fun e => e.1 * ((d : Int) + (e.2.length : Int)))).sum_eq,
          List.map_append, List.sum_append]
      have hweights : ((l.filter (fun x => decide (x.2.head? = some '0'))).map Prod.fst
          ++ (l.filter (fun x => decide (x.2.head? = some '1'))).map Prod.fst).Perm
          (l.map Prod.fst) := by
        rw [← List.map_append]
        exact hperm.map Prod.fst
      generalize l.filter (fun x => decide (x.2.head? = some '0')) = l0 at *
      generalize l.filter (fun x => decide (x.2.head? = some '1')) = l1 at *
      by_cases h0e : l0 = []
      · subst h0e
        have h1e : l1 ≠ [] := by
          intro h
          subst h
          exact hne2 hperm.symm.eq_nil
        simp only [List.map_nil, List.sum_nil, List.nil_append, zero_add] at htotal hcost hweights
        obtain ⟨p, hp1, hp2, hp3⟩ := aux '1' l1 hsub1 hhead1 hpf1 h1e (by omega) d
        refine ⟨p, hp1, hp2.trans hweights, ?_⟩
        have hle := stripHead_cost_le d l1 (fun e he => hcodes e (hsub1 e he))
          (fun e he => hw e (hsub1 e he))
        omega
      · by_cases h1e : l1 = []
        · subst h1e
          simp only [List.map_nil, List.sum_nil, List.append_nil, add_zero] at htotal hcost hweights
          obtain ⟨p, hp1, hp2, hp3⟩ := aux '0' l0 hsub0 hhead0 hpf0 h0e (by omega) d
          refine ⟨p, hp1, hp2.trans hweights, ?_⟩
          have hle := stripHead_cost_le d l0 (fun e he => hcodes e (hsub0 e he))
            (fun e he => hw e (hsub0 e he))
          omega
        · obtain ⟨p0, hp01, hp02, hp03⟩ := aux '0' l0 hsub0 hhead0 hpf0 h0e (by omega) (d + 1)
          obtain ⟨p1, hp11, hp12, hp13⟩ := aux '1' l1 hsub1 hhead1 hpf1 h1e (by omega) (d + 1)
          rw [stripHead_cost d l0 (fun e he => hcodes e (hsub0 e he))] at hp03
          rw [stripHead_cost d l1 (fun e he => hcodes e (hsub1 e he))] at hp13
          refine ⟨p0 ++ p1, ?_, ?_, ?_⟩
          · rw [List.map_append]
            exact IsProfile.node d _ _ hp01 hp11
          · rw [List.map_append]
            exact (hp02.append hp12).trans hweights
          · rw [pcost_append]
            omega

theorem prefixFree_lower_bound (map : hashmapF) (hv : ValidTable map) (hne : map ≠ [])
    (encodingMap : hashmapE) (hpos : ∀ e ∈ map, 0 ≤ e.2)
    (hbin : ∀ k ∈ hashmapF.keys map, ∀ c ∈ hashmapE.subscript encodingMap k, c = '0' ∨ c = '1')
    (hpf : ∀ k1 ∈ hashmapF.keys map, ∀ k2 ∈ hashmapF.keys map, k1 ≠ k2 →
      ¬ hashmapE.subscript encodingMap k1 <+: hashmapE.subscript encodingMap k2) :
    ∃ p : List (Int × Nat), IsProfile 0 (p.map Prod.snd) ∧
      (p.map Prod.fst).Perm ((hashmapF.keys map).map (hashmapF.get map)) ∧
      pcost p ≤ totalCost map encodingMap := by
  have hkne : hashmapF.keys map ≠ [] := by
    intro h0
    exact hne (List.map_eq_nil_iff.mp h0)
  obtain ⟨p, hp1, hp2, hp3⟩ := prefixFree_profile _
    ((hashmapF.keys map).map
      (fun k => (hashmapF.get map k, hashmapE.subscript encodingMap k)))
    (le_refl _)
    (by intro h0; exact hkne (List.map_eq_nil_iff.mp h0))
    (by
      intro e he
      obtain ⟨k, hk, rfl⟩ := List.mem_map.mp he
      obtain ⟨e1, he1, rfl⟩ := List.mem_map.mp hk
      have := lookup_of_mem map hv.1 e1.1 e1.2 he1
      simp only [hashmapF.get, this, Option.getD_some]
      exact hpos e1 he1)
    (by
      intro e he c hc
      obtain ⟨k, hk, rfl⟩ := List.mem_map.mp he
      exact hbin k hk c hc)
    (by
      unfold PrefixFree
      rw [List.pairwise_map]
      refine List.Pairwise.imp_of_mem ?_ hv.1
      intro a b ha hb hab
      exact ⟨hpf a ha b hb hab, hpf b hb a ha (Ne.symm hab)⟩)
    0
  refine ⟨p, hp1, ?_, hp3.trans (le_of_eq ?_)⟩
  · rw [List.map_map] at hp2
    exact hp2
  · unfold totalCost
    rw [List.map_map]
    apply congrArg
    apply List.map_congr_left
    intro k _
    simp

/-! ## The properties the specification states -/

/-- C1 (round trip): for every byte sequence, the empty one included, and for
its frequency table with the keys listed in any order, the tree and the code
table are built from that table and decoding the bits `encode` produces returns
exactly the byte sequence, as returned string and as written output. -/
theorem round_trip (sgn : Bool) (source : List CChar) (map : hashmapF)
    (hmap : map.Perm (buildFrequencyMap sgn source [])) :
    ∃ t, buildEncodingTree map = some t ∧
      decode (encode sgn source (buildEncodingMap t) true).output t = some ⟨source, source⟩ ∧
      decode (writeBits (encode sgn source (buildEncodingMap t) false).str) t
        = some ⟨source, source⟩ := by
  cases source with
  | nil =>
    have h1 : buildFrequencyMap sgn [] [] = [(PSEUDO_EOF, 1)] := rfl
    rw [h1] at hmap
    rw [List.perm_singleton.mp hmap]
    exact ⟨.node PSEUDO_EOF 1 .null .null, buildEncodingTree_single PSEUDO_EOF 1, rfl, rfl⟩
  | cons c rest =>
    obtain ⟨t, ht, hd⟩ :=
      decode_encode_trailing sgn (c :: rest) (List.cons_ne_nil _ _) map hmap []
    rw [List.append_nil] at hd
    refine ⟨t, ht, hd, ?_⟩
    rw [encode_str, ← encode_output]
    exact hd

theorem round_trip_witness :
    ∃ t, buildEncodingTree [(256, 1), (99, 1), (98, 2), (97, 3)] = some t ∧
      decode (encode true [97, 97, 97, 98, 98, 99] (buildEncodingMap t) true).output t
        = some ⟨[97, 97, 97, 98, 98, 99], [97, 97, 97, 98, 98, 99]⟩ ∧
      decode (writeBits (encode true [97, 97, 97, 98, 98, 99] (buildEncodingMap t) false).str) t
        = some ⟨[97, 97, 97, 98, 98, 99], [97, 97, 97, 98, 98, 99]⟩ :=
  round_trip true [97, 97, 97, 98, 98, 99] [(256, 1), (99, 1), (98, 2), (97, 3)] (by decide)

/-- C2: for every non-empty byte sequence, its frequency table with the keys in
any order, and every sequence of trailing values in the bit stream, decoding the
bits of `encode` followed by the trailing ones returns exactly the byte
sequence: the loop stops at the `PSEUDO_EOF` leaf, `PSEUDO_EOF` is not emitted
and what follows has no effect. -/
theorem decode_stops_at_PSEUDO_EOF (sgn : Bool) (source : List CChar) (hne : source ≠ [])
    (map : hashmapF) (hmap : map.Perm (buildFrequencyMap sgn source []))
    (trailing : ifbitstream) :
    ∃ t, buildEncodingTree map = some t ∧
      decode ((encode sgn source (buildEncodingMap t) true).output ++ trailing) t
        = some ⟨source, source⟩ :=
  decode_encode_trailing sgn source hne map hmap trailing

theorem decode_stops_at_PSEUDO_EOF_witness :
    ([97, 97, 97, 98, 98, 99] : List CChar) ≠ [] ∧
    ∃ t, buildEncodingTree (buildFrequencyMap true [97, 97, 97, 98, 98, 99] []) = some t ∧
      decode ((encode true [97, 97, 97, 98, 98, 99] (buildEncodingMap t) true).output
          ++ [0, 1, 1]) t
        = some ⟨[97, 97, 97, 98, 98, 99], [97, 97, 97, 98, 98, 99]⟩ :=
  ⟨by decide, decode_stops_at_PSEUDO_EOF true [97, 97, 97, 98, 98, 99] (by decide)
    (buildFrequencyMap true [97, 97, 97, 98, 98, 99] []) (List.Perm.refl _) [0, 1, 1]⟩

/-- C3 (prefix-code property): for a well-formed frequency table (no key twice,
no key equal to `NOT_A_CHAR`) with at least two entries, `buildEncodingTree`
returns a tree, and in the code table `buildEncodingMap` derives from it no code
of one symbol is a prefix of the code of a different symbol. -/
theorem prefix_code_property (map : hashmapF) (hv : ValidTable map) (h2 : 2 ≤ map.length) :
    ∃ t, buildEncodingTree map = some t ∧
      ∀ (k1 k2 : Int) (c1 c2 : List Char), k1 ≠ k2 →
        List.lookup k1 (buildEncodingMap t) = some c1 →
        List.lookup k2 (buildEncodingMap t) = some c2 → ¬ c1 <+: c2 := by
  have hne : map ≠ [] := by
    intro h0
    subst h0
    simp at h2
  obtain ⟨t, ht, _, _⟩ := buildEncodingTree_spec map hv hne
  refine ⟨t, ht, ?_⟩
  intro k1 k2 c1 c2 hk h1 h2
  exact codes_prefix_free t k1 k2 c1 c2 (lookup_buildEncodingMap_mem t k1 c1 h1)
    (lookup_buildEncodingMap_mem t k2 c2 h2) hk

theorem prefix_code_property_witness :
    ValidTable [(97, 3), (98, 2), (99, 1), (256, 1)] ∧
    ∃ t, buildEncodingTree [(97, 3), (98, 2), (99, 1), (256, 1)] = some t ∧
      ∀ (k1 k2 : Int) (c1 c2 : List Char), k1 ≠ k2 →
        List.lookup k1 (buildEncodingMap t) = some c1 →
        List.lookup k2 (buildEncodingMap t) = some c2 → ¬ c1 <+: c2 :=
  ⟨by decide, prefix_code_property [(97, 3), (98, 2), (99, 1), (256, 1)] (by decide) (by decide)⟩

/-- C4: starting from an empty table, `buildFrequencyMap` leaves a table whose
keys are exactly the symbols of the source and `PSEUDO_EOF`, each key once;
every symbol of the source has its number of occurrences as count and
`PSEUDO_EOF` has count 1.  For "aaabbc" the table is a=3, b=2, c=1,
PSEUDO_EOF=1. -/
theorem buildFrequencyMap_counts (sgn : Bool) (source : List CChar) :
    (∀ k, hashmapF.containsKey (buildFrequencyMap sgn source []) k = true ↔
        (k = PSEUDO_EOF ∨ ∃ c ∈ source, charToInt sgn c = k)) ∧
    (hashmapF.keys (buildFrequencyMap sgn source [])).Nodup ∧
    (∀ c ∈ source,
        hashmapF.get (buildFrequencyMap sgn source []) (charToInt sgn c) = (source.count c : Int)) ∧
    hashmapF.get (buildFrequencyMap sgn source []) PSEUDO_EOF = 1 ∧
    (buildFrequencyMap sgn [97, 97, 97, 98, 98, 99] []).Perm
      [(97, 3), (98, 2), (99, 1), (PSEUDO_EOF, 1)] := by
  refine ⟨?_, (buildFrequencyMap_valid sgn source).1, ?_, ?_, ?_⟩
  · intro k
    unfold hashmapF.containsKey
    rw [← mem_keys_iff]
    exact mem_keys_buildFrequencyMap sgn source k
  · intro c hc
    unfold hashmapF.get
    rw [lookup_buildFrequencyMap, if_neg (charToInt_ne_PSEUDO_EOF sgn c), countP_charToInt]
    have hpos : 0 < source.count c := List.count_pos_iff.mpr hc
    rw [if_neg (Nat.pos_iff_ne_zero.mp hpos)]
    rfl
  · unfold hashmapF.get
    rw [lookup_buildFrequencyMap, if_pos rfl]
    rfl
  · cases sgn <;> decide

/-- C5: for a non-empty well-formed frequency table (no key twice, no key equal
to `NOT_A_CHAR`) the tree has one leaf per table entry and the code table has
exactly the keys of the frequency table, one code each; hence the code table
derived from the frequency table of a source (its keys in any order) has an
entry for every symbol of the source and for `PSEUDO_EOF`. -/
theorem code_table_keys :
    (∀ (map : hashmapF), ValidTable map → map ≠ [] →
      ∃ t, buildEncodingTree map = some t ∧ (leaves t).Perm map ∧
        ((buildEncodingMap t).map Prod.fst).Perm (hashmapF.keys map)) ∧
    (∀ (sgn : Bool) (source : List CChar) (map : hashmapF),
      map.Perm (buildFrequencyMap sgn source []) →
      ∃ t, buildEncodingTree map = some t ∧
        (∀ c ∈ source, (List.lookup (charToInt sgn c) (buildEncodingMap t)).isSome = true) ∧
        (List.lookup PSEUDO_EOF (buildEncodingMap t)).isSome = true) := by
  have main : ∀ (map : hashmapF), ValidTable map → map ≠ [] →
      ∃ t, buildEncodingTree map = some t ∧ (leaves t).Perm map ∧
        ((buildEncodingMap t).map Prod.fst).Perm (hashmapF.keys map) := by
    intro map hv hne
    obtain ⟨t, ht, _, hp⟩ := buildEncodingTree_spec map hv hne
    refine ⟨t, ht, hp, ?_⟩
    rw [buildEncodingMap_eq_codes t (leaves_keys_nodup hv hp), codes_keys]
    exact hp.map Prod.fst
  refine ⟨main, ?_⟩
  intro sgn source map hmap
  have hv : ValidTable map := ValidTable.of_perm hmap (buildFrequencyMap_valid sgn source)
  have hkeys : ∀ k, k ∈ hashmapF.keys map ↔ (k = PSEUDO_EOF ∨ ∃ c ∈ source, charToInt sgn c = k) :=
    fun k => ((hmap.map Prod.fst).mem_iff).trans (mem_keys_buildFrequencyMap sgn source k)
  have hne : map ≠ [] := by
    intro h0
    have h1 := (hkeys PSEUDO_EOF).mpr (Or.inl rfl)
    rw [h0] at h1
    cases h1
  obtain ⟨t, ht, _, hk⟩ := main _ hv hne
  have hmem : ∀ k, k ∈ hashmapF.keys map →
      (List.lookup k (buildEncodingMap t)).isSome = true := by
    intro k hk1
    exact (mem_map_fst_iff (buildEncodingMap t) k).mp (hk.symm.subset hk1)
  refine ⟨t, ht, ?_, ?_⟩
  · intro c hc
    exact hmem _ ((hkeys _).mpr (Or.inr ⟨c, hc, rfl⟩))
  · exact hmem _ ((hkeys _).mpr (Or.inl rfl))

theorem code_table_keys_witness :
    ∃ t, buildEncodingTree [(97, 3), (98, 2), (99, 1), (256, 1)] = some t ∧
      (leaves t).Perm [(97, 3), (98, 2), (99, 1), (256, 1)] ∧
      ((buildEncodingMap t).map Prod.fst).Perm (hashmapF.keys [(97, 3), (98, 2), (99, 1), (256, 1)]) :=
  code_table_keys.1 [(97, 3), (98, 2), (99, 1), (256, 1)] (by decide) (by decide)

/-- C6: for a tree built by `buildEncodingTree` from a non-empty well-formed
frequency table (no key twice, no key equal to `NOT_A_CHAR`), `buildEncodingMap`
maps the symbol of every leaf to the path from the root to that leaf, written
with `'0'` for a step to the zero child and `'1'` for a step to the one child;
for a table with a single entry the code table is the one entry that maps the
sole symbol to the empty string. -/
theorem buildEncodingMap_paths (map : hashmapF) (hv : ValidTable map) (hne : map ≠ []) :
    ∃ t, buildEncodingTree map = some t ∧
      (∀ (p : List Char) (character count : Int),
        follow t p = .node character count .null .null →
          List.lookup character (buildEncodingMap t) = some p) ∧
      (∀ (key value : Int), map = [(key, value)] → buildEncodingMap t = [(key, [])]) := by
  obtain ⟨t, ht, hb, hp⟩ := buildEncodingTree_spec map hv hne
  refine ⟨t, ht, ?_, ?_⟩
  · intro p character count hf
    exact lookup_buildEncodingMap_of_mem t (leaves_keys_nodup hv hp) character p
      (codes_of_follow t hb p character count hf)
  · intro key value hm
    subst hm
    rw [buildEncodingTree_single] at ht
    injection ht with ht
    subst ht
    have hk : key ≠ NOT_A_CHAR := fun e => hv.2 (by rw [← e]; exact List.mem_singleton.mpr rfl)
    simp [buildEncodingMap, _buildEncodingMap, hk, hashmapE.assign]

theorem buildEncodingMap_paths_witness :
    ∃ t, buildEncodingTree [(97, 3), (98, 2), (99, 1), (256, 1)] = some t ∧
      (∀ (p : List Char) (character count : Int),
        follow t p = .node character count .null .null →
          List.lookup character (buildEncodingMap t) = some p) ∧
      (∀ (key value : Int), [(97, 3), (98, 2), (99, 1), (256, 1)] = [(key, value)] →
        buildEncodingMap t = [(key, [])]) :=
  buildEncodingMap_paths [(97, 3), (98, 2), (99, 1), (256, 1)] (by decide) (by decide)

/-- C7: for a code table that has an entry for every symbol of the source and
for `PSEUDO_EOF`, `encode` returns the codes of the symbols in source order
followed by the code of `PSEUDO_EOF`, stores the length of that string in
`size`, and returns the same whether `makeFile` is true or false; with
`makeFile` true, and the codes made of binary digits, the bits written are the
digits of the string in order; with `makeFile` false nothing is written. -/
theorem encode_spec (sgn : Bool) (input : List CChar) (encodingMap : hashmapE)
    (code : Int → List Char)
    (hsym : ∀ c ∈ input, List.lookup (charToInt sgn c) encodingMap = some (code (charToInt sgn c)))
    (heof : List.lookup PSEUDO_EOF encodingMap = some (code PSEUDO_EOF)) :
    (∀ makeFile : Bool,
      (encode sgn input encodingMap makeFile).str
        = input.flatMap (fun c => code (charToInt sgn c)) ++ code PSEUDO_EOF ∧
      (encode sgn input encodingMap makeFile).size
        = ((input.flatMap (fun c => code (charToInt sgn c)) ++ code PSEUDO_EOF).length : Int)) ∧
    ((∀ c ∈ input, ∀ d ∈ code (charToInt sgn c), d = '0' ∨ d = '1') →
      (∀ d ∈ code PSEUDO_EOF, d = '0' ∨ d = '1') →
      (encode sgn input encodingMap true).output
        = (input.flatMap (fun c => code (charToInt sgn c)) ++ code PSEUDO_EOF).map
            (fun d => if d = '1' then 1 else 0)) ∧
    (encode sgn input encodingMap false).output = [] := by
  have hflat : input.flatMap (fun c => hashmapE.subscript encodingMap (charToInt sgn c))
      = input.flatMap (fun c => code (charToInt sgn c)) := by
    apply List.flatMap_congr
    intro c hc
    simp [hashmapE.subscript, hsym c hc]
  have hE : hashmapE.subscript encodingMap PSEUDO_EOF = code PSEUDO_EOF := by
    simp [hashmapE.subscript, heof]
  have hstr : ∀ makeFile : Bool, (encode sgn input encodingMap makeFile).str
      = input.flatMap (fun c => code (charToInt sgn c)) ++ code PSEUDO_EOF := by
    intro makeFile
    rw [encode_str, hflat, hE]
  refine ⟨fun makeFile => ⟨hstr makeFile, ?_⟩, ?_, ?_⟩
  · rw [← hstr makeFile]
    cases makeFile <;> simp [encode]
  · intro hbin hbin_eof
    rw [encode_output, hflat, hE]
    apply writeBits_binary
    intro d hd
    rcases List.mem_append.mp hd with hd | hd
    · obtain ⟨c, hc, hdc⟩ := List.mem_flatMap.mp hd
      exact hbin c hc d hdc
    · exact hbin_eof d hd
  · simp [encode]

set_option maxRecDepth 8000 in
theorem encode_spec_witness :
    (encode true [97, 98, 97] [(97, ['0']), (98, ['1', '0']), (256, ['1', '1'])] true).output
      = ([97, 98, 97].flatMap
          (fun c => hashmapE.subscript [(97, ['0']), (98, ['1', '0']), (256, ['1', '1'])]
            (charToInt true c))
          ++ hashmapE.subscript [(97, ['0']), (98, ['1', '0']), (256, ['1', '1'])] PSEUDO_EOF).map
          (fun d => if d = '1' then 1 else 0) :=
  (encode_spec true [97, 98, 97] [(97, ['0']), (98, ['1', '0']), (256, ['1', '1'])]
    (hashmapE.subscript [(97, ['0']), (98, ['1', '0']), (256, ['1', '1'])])
    (by decide) (by decide)).2.1 (by decide) (by decide)

/-- C8 (weight invariant): in the tree `buildEncodingTree` returns for a non-empty
well-formed frequency table (no key twice, no key equal to `NOT_A_CHAR`), every
internal node has its two children and its count is the sum of their counts,
and the count of the root is the sum of all counts of the table, the one of
`PSEUDO_EOF` included. -/
theorem weight_invariant (map : hashmapF) (hv : ValidTable map) (hne : map ≠ []) :
    ∃ t, buildEncodingTree map = some t ∧ FullTree t ∧ WeightInvariant t ∧
      t.count = totalCount map := by
  obtain ⟨t, ht, hb, hp⟩ := buildEncodingTree_spec map hv hne
  refine ⟨t, ht, hb.fullTree, hb.weightInvariant, ?_⟩
  rw [hb.count_eq]
  exact (hp.map Prod.snd).sum_eq

theorem weight_invariant_witness :
    ∃ t, buildEncodingTree [(97, 3), (98, 2), (99, 1), (256, 1)] = some t ∧ FullTree t ∧
      WeightInvariant t ∧ t.count = totalCount [(97, 3), (98, 2), (99, 1), (256, 1)] :=
  weight_invariant [(97, 3), (98, 2), (99, 1), (256, 1)] (by decide) (by decide)

/-- C9 (tree shape): for a well-formed frequency table (no key twice, no key
equal to `NOT_A_CHAR`) with at least two entries `buildEncodingTree` returns a
full binary tree, in which every node marked `NOT_A_CHAR` has exactly two
children and every other node has none; for the table that holds only
`PSEUDO_EOF` it returns a single node without children, which is root and leaf
at once. -/
theorem tree_shape :
    (∀ (map : hashmapF), ValidTable map → 2 ≤ map.length →
      ∃ t, buildEncodingTree map = some t ∧ FullTree t) ∧
    (∀ (value : Int),
      buildEncodingTree [(PSEUDO_EOF, value)] = some (.node PSEUDO_EOF value .null .null)) := by
  refine ⟨?_, fun value => buildEncodingTree_single PSEUDO_EOF value⟩
  intro map hv h2
  have hne : map ≠ [] := by
    intro h0
    subst h0
    simp at h2
  obtain ⟨t, ht, hb, _⟩ := buildEncodingTree_spec map hv hne
  exact ⟨t, ht, hb.fullTree⟩

theorem tree_shape_witness :
    ∃ t, buildEncodingTree [(97, 3), (98, 2), (99, 1), (256, 1)] = some t ∧ FullTree t :=
  tree_shape.1 [(97, 3), (98, 2), (99, 1), (256, 1)] (by decide) (by decide)

/-- C10: for the single-leaf tree that holds only `PSEUDO_EOF`, `decode` has no
test of the leaf before it reads a bit.  It returns the empty output only when
the bit stream is empty; as soon as the stream holds a bit, the loop reads it,
emits the leaf as a character and moves to a child of the leaf, which is the
null pointer, and dereferences it.  (On a stream value that is neither 0 nor 1
the emitted character is what the loop returns.) -/
theorem decode_single_leaf (value : Int) (rest : ifbitstream) :
    decode [] (.node PSEUDO_EOF value .null .null) = some ⟨[], []⟩ ∧
    decode (0 :: rest) (.node PSEUDO_EOF value .null .null) = none ∧
    decode (1 :: rest) (.node PSEUDO_EOF value .null .null) = none ∧
    decode (-1 :: rest) (.node PSEUDO_EOF value .null .null)
      = some ⟨[intToChar PSEUDO_EOF], [intToChar PSEUDO_EOF]⟩ := by
  refine ⟨rfl, ?_, ?_, ?_⟩
  · simp [decode, decodeLoop, PSEUDO_EOF, NOT_A_CHAR]
  · simp [decode, decodeLoop, PSEUDO_EOF, NOT_A_CHAR]
  · simp [decode, decodeLoop, PSEUDO_EOF, NOT_A_CHAR]

/-- C11 (as amended): when the bit sequence is cut off at any point, `decode`
stops at the end of the stream and returns, as a normal result, the symbols
emitted so far, a prefix of the source; no failure is signalled, whether or not
the `PSEUDO_EOF` leaf was reached. -/
theorem truncated_payload_returns_prefix (sgn : Bool) (source : List CChar) (hne : source ≠ [])
    (map : hashmapF) (hmap : map.Perm (buildFrequencyMap sgn source [])) (n : Nat) :
    ∃ t, buildEncodingTree map = some t ∧
      ∃ p, p <+: source ∧
        decode ((encode sgn source (buildEncodingMap t) true).output.take n) t = some ⟨p, p⟩ := by
  obtain ⟨t, count, zero, one, ht, hb, hroot, hnd, heof, hsrc⟩ :=
    tree_of_source sgn source hne map hmap
  refine ⟨t, ht, ?_⟩
  obtain ⟨p, hp, hd⟩ := decodeLoop_truncated sgn t hb count zero one hroot
    (fun k => hashmapE.subscript (buildEncodingMap t) k)
    (fun k hk => subscript_mem_codes t hnd k hk) heof source hsrc n [] []
  refine ⟨p, hp, ?_⟩
  unfold decode
  rw [encode_output]
  simpa using hd

theorem truncated_payload_returns_prefix_witness :
    ([97, 97, 97, 98, 98, 99] : List CChar) ≠ [] ∧
    ∃ t, buildEncodingTree (buildFrequencyMap true [97, 97, 97, 98, 98, 99] []) = some t ∧
      ∃ p, p <+: [97, 97, 97, 98, 98, 99] ∧
        decode ((encode true [97, 97, 97, 98, 98, 99] (buildEncodingMap t) true).output.take 5) t
          = some ⟨p, p⟩ :=
  ⟨by decide, truncated_payload_returns_prefix true [97, 97, 97, 98, 98, 99] (by decide)
    (buildFrequencyMap true [97, 97, 97, 98, 98, 99] []) (List.Perm.refl _) 5⟩

/-- C11 (counterexample): source "aabbbb", table a=2, b=4, PSEUDO_EOF=1 (no two
counts tie, so the tree does not depend on the order inside the queue).  The
codes are PSEUDO_EOF=00, a=01, b=1 and the encoded sequence has 10 bits.  Cut
after 9 bits, before the `PSEUDO_EOF` leaf is reached, `decode` returns the same
result as for the complete sequence; cut after 5 bits it returns "aa" as a
normal result. -/
theorem truncated_payload_counterexample :
    buildEncodingTree (buildFrequencyMap true [97, 97, 98, 98, 98, 98] [])
      = some (.node 257 7 (.node 257 3 (.node 256 1 .null .null) (.node 97 2 .null .null))
          (.node 98 4 .null .null)) ∧
    (encode true [97, 97, 98, 98, 98, 98]
        (buildEncodingMap (.node 257 7
          (.node 257 3 (.node 256 1 .null .null) (.node 97 2 .null .null))
          (.node 98 4 .null .null))) true).output
      = [0, 1, 0, 1, 1, 1, 1, 1, 0, 0] ∧
    decode [0, 1, 0, 1, 1, 1, 1, 1, 0]
        (.node 257 7 (.node 257 3 (.node 256 1 .null .null) (.node 97 2 .null .null))
          (.node 98 4 .null .null))
      = some ⟨[97, 97, 98, 98, 98, 98], [97, 97, 98, 98, 98, 98]⟩ ∧
    decode [0, 1, 0, 1, 1, 1, 1, 1, 0, 0]
        (.node 257 7 (.node 257 3 (.node 256 1 .null .null) (.node 97 2 .null .null))
          (.node 98 4 .null .null))
      = some ⟨[97, 97, 98, 98, 98, 98], [97, 97, 98, 98, 98, 98]⟩ ∧
    decode [0, 1, 0, 1, 1]
        (.node 257 7 (.node 257 3 (.node 256 1 .null .null) (.node 97 2 .null .null))
          (.node 98 4 .null .null))
      = some ⟨[97, 97], [97, 97]⟩ := by
  decide

/-- C12 (as amended): `encode` does not fail on a symbol without entry in the
code table.  The read access gives the empty string for it, so the symbol adds
no bit: `encode` returns for the source what it returns for the source without
the symbols that have no entry. -/
theorem encode_skips_missing_symbols (sgn : Bool) (input : List CChar) (encodingMap : hashmapE)
    (makeFile : Bool) :
    encode sgn input encodingMap makeFile
      = encode sgn
          (input.filter (fun c => (List.lookup (charToInt sgn c) encodingMap).isSome))
          encodingMap makeFile := by
  unfold encode
  rw [encodeLoop_eq, encodeLoop_eq, ← encodeLoop_filter]

/-- C12 (counterexample): the symbol 98 has no entry in the code table, and
`encode` returns the bit-string "001" for the source 97, 98, 97. -/
theorem encode_missing_symbol_counterexample :
    List.lookup (charToInt true 98) [(97, ['0']), (256, ['1'])] = none ∧
    encode true [97, 98, 97] [(97, ['0']), (256, ['1'])] true = ⟨['0', '0', '1'], 3, [0, 0, 1]⟩ := by
  decide

/-- C13: `decompress` cuts the path at the first occurrence of ".txt.huf", found
with `find`, not at the trailing suffix.  For a path `z ++ ".txt.huf"` the name
it opens is the part of `z` before the position `find` returns, followed by
"_unc.txt": "report.txt.huf" gives "report_unc.txt", but "a.txt.huf.txt.huf"
gives "a_unc.txt" and not "a.txt.huf_unc.txt". -/
theorem decompress_newFile_first_occurrence :
    (∀ (z : List Char) (frequencyMap : hashmapF) (input : ifbitstream),
      ∃ n, find (z ++ ['.', 't', 'x', 't', '.', 'h', 'u', 'f'])
          ['.', 't', 'x', 't', '.', 'h', 'u', 'f'] = some n ∧ n ≤ z.length ∧ ∃ result,
        decompress (z ++ ['.', 't', 'x', 't', '.', 'h', 'u', 'f']) frequencyMap input
          = .opened (z.take n ++ ['_', 'u', 'n', 'c', '.', 't', 'x', 't']) result) ∧
    decompress "report.txt.huf".toList [(256, 1)] []
      = .opened "report_unc.txt".toList (some ⟨[], []⟩) ∧
    decompress "a.txt.huf.txt.huf".toList [(256, 1)] []
      = .opened "a_unc.txt".toList (some ⟨[], []⟩) := by
  refine ⟨?_, by decide, by decide⟩
  intro z frequencyMap input
  obtain ⟨n, hn, hf⟩ := find_append_self ['.', 't', 'x', 't', '.', 'h', 'u', 'f'] z
  refine ⟨n, hf, hn, ?_⟩
  unfold decompress
  simp only [hf, erase]
  have hle : n ≤ (z ++ ['.', 't', 'x', 't', '.', 'h', 'u', 'f']).length := by
    rw [List.length_append]
    omega
  rw [if_pos hle, List.take_append_of_le_length hn]
  cases buildEncodingTree frequencyMap with
  | none => exact ⟨_, rfl⟩
  | some root => exact ⟨_, rfl⟩

/-- C14 (as amended): for every path in which ".txt.huf" does not occur at all,
`decompress` fails with the exception of `erase` before it derives or opens any
output file. -/
theorem decompress_throws_without_occurrence (filename : List Char)
    (h : ¬ ['.', 't', 'x', 't', '.', 'h', 'u', 'f'] <:+: filename)
    (frequencyMap : hashmapF) (input : ifbitstream) :
    decompress filename frequencyMap input = .thrown := by
  unfold decompress
  simp only [find_eq_none _ filename h, erase]

theorem decompress_throws_without_occurrence_witness :
    decompress "notes.huf".toList [(97, 1), (256, 1)] [0, 1] = .thrown :=
  decompress_throws_without_occurrence "notes.huf".toList (by decide) [(97, 1), (256, 1)] [0, 1]

/-- C14 (counterexample): the path "a.txt.huf.bak" does not end with ".txt.huf",
and `decompress` opens the output file "a_unc.txt" and decodes into it (header
a=2, PSEUDO_EOF=1, so the codes are PSEUDO_EOF=0, a=1; the bits 1, 1, 0 decode
to "aa"). -/
theorem decompress_no_suffix_counterexample :
    ¬ (".txt.huf".toList <:+ "a.txt.huf.bak".toList) ∧
    decompress "a.txt.huf.bak".toList [(97, 2), (256, 1)] [1, 1, 0]
      = .opened "a_unc.txt".toList (some ⟨[97, 97], [97, 97]⟩) := by
  decide

/-- C15 (as amended): two well-formed frequency tables (no key twice, no key
equal to `NOT_A_CHAR`) that hold the same entries, in whatever key order, give
full binary trees with the same leaves (the entries of the table) and the same
root count; the tree built from the deserialized header is the tree built at
compress time when the header lists the keys in the same order. -/
theorem buildEncodingTree_same_entries (map1 map2 : hashmapF) (hv : ValidTable map1)
    (hne : map1 ≠ []) (hp : map2.Perm map1) :
    ∃ t1 t2, buildEncodingTree map1 = some t1 ∧ buildEncodingTree map2 = some t2 ∧
      FullTree t1 ∧ FullTree t2 ∧ (leaves t1).Perm (leaves t2) ∧ t1.count = t2.count ∧
      (map1 = map2 → t1 = t2) := by
  have hv2 : ValidTable map2 := ValidTable.of_perm hp hv
  have hne2 : map2 ≠ [] := by
    intro h0
    subst h0
    exact hne hp.symm.eq_nil
  obtain ⟨t1, ht1, hb1, hp1⟩ := buildEncodingTree_spec map1 hv hne
  obtain ⟨t2, ht2, hb2, hp2⟩ := buildEncodingTree_spec map2 hv2 hne2
  refine ⟨t1, t2, ht1, ht2, hb1.fullTree, hb2.fullTree, hp1.trans (hp.symm.trans hp2.symm), ?_, ?_⟩
  · rw [hb1.count_eq, hb2.count_eq]
    exact ((hp1.trans (hp.symm.trans hp2.symm)).map Prod.snd).sum_eq
  · intro he
    subst he
    rw [ht1] at ht2
    exact Option.some.inj ht2

theorem buildEncodingTree_same_entries_witness :
    ∃ t1 t2, buildEncodingTree [(97, 1), (256, 1)] = some t1 ∧
      buildEncodingTree [(256, 1), (97, 1)] = some t2 ∧
      FullTree t1 ∧ FullTree t2 ∧ (leaves t1).Perm (leaves t2) ∧ t1.count = t2.count ∧
      (([(97, 1), (256, 1)] : hashmapF) = [(256, 1), (97, 1)] → t1 = t2) :=
  buildEncodingTree_same_entries [(97, 1), (256, 1)] [(256, 1), (97, 1)] (by decide) (by decide)
    (by decide)

/-- C15 (counterexample): the tables a=1, PSEUDO_EOF=1 and PSEUDO_EOF=1, a=1 hold
the same entries, and `buildEncodingTree` returns two different trees: the key
listed first becomes the zero child. -/
theorem buildEncodingTree_key_order_counterexample :
    ([(256, 1), (97, 1)] : hashmapF).Perm [(97, 1), (256, 1)] ∧
    buildEncodingTree [(97, 1), (256, 1)]
      = some (.node 257 2 (.node 97 1 .null .null) (.node 256 1 .null .null)) ∧
    buildEncodingTree [(256, 1), (97, 1)]
      = some (.node 257 2 (.node 256 1 .null .null) (.node 97 1 .null .null)) ∧
    buildEncodingTree [(97, 1), (256, 1)] ≠ buildEncodingTree [(256, 1), (97, 1)] := by
  decide

/-- C16 (merge order): the queue `buildEncodingTree` fills is in heap order, and
each merge on a queue in heap order removes first a node of lowest count, then a
node of lowest count among the remaining ones, and pushes their combination with
the first removed as zero child and the second as one child, which leaves the
queue in heap order; so at every internal node of the tree returned for a
non-empty well-formed frequency table (no key twice, no key equal to
`NOT_A_CHAR`) the count of the zero child is at most the count of the one
child. -/
theorem merge_order :
    (∀ (map : hashmapF), IsHeap (pushLeaves map (hashmapF.keys map) [])) ∧
    (∀ (pq : List HuffmanNode), IsHeap pq → 1 < pq.length →
      ∃ a b, pqTop pq = some a ∧ pqTop (pqPop pq) = some b ∧
        (∀ x ∈ pq, a.count ≤ x.count) ∧ (a :: pqPop pq).Perm pq ∧
        (∀ x ∈ pqPop pq, b.count ≤ x.count) ∧ (b :: pqPop (pqPop pq)).Perm (pqPop pq) ∧
        mergeLoop 1 pq
          = some (pqPush (pqPop (pqPop pq)) (.node NOT_A_CHAR (a.count + b.count) a b)) ∧
        IsHeap (pqPush (pqPop (pqPop pq)) (.node NOT_A_CHAR (a.count + b.count) a b))) ∧
    (∀ (map : hashmapF), ValidTable map → map ≠ [] →
      ∃ t, buildEncodingTree map = some t ∧ MergeOrdered t) := by
  refine ⟨fun map => pushLeaves_heap map _ [] isHeap_nil, ?_, ?_⟩
  · intro pq h hlen
    obtain ⟨a, b, ha, hb, hamin, hbmin, hpa, hpb, hq⟩ := merge_step pq h hlen
    refine ⟨a, b, ha, hb, hamin, hpa, hbmin, hpb, ?_, hq⟩
    simp only [mergeLoop, if_pos hlen, ha, hb]
  · intro map hv hne
    obtain ⟨t, ht, _, _⟩ := buildEncodingTree_spec map hv hne
    exact ⟨t, ht, buildEncodingTree_ordered map t ht⟩

theorem merge_order_witness :
    ∃ t, buildEncodingTree [(97, 3), (98, 2), (99, 1), (256, 1)] = some t ∧ MergeOrdered t :=
  merge_order.2.2 [(97, 3), (98, 2), (99, 1), (256, 1)] (by decide) (by decide)

/-- C17: the keys `buildFrequencyMap` puts in the table are the values of the
source characters converted from `char` to `int`, and `PSEUDO_EOF`.  Where
`char` is unsigned they lie in [0, 255]; where `char` is signed they lie in
[-128, 127], and a source byte of value 128 to 255 gets a negative key: the
byte 200 is counted under the key -56. -/
theorem buildFrequencyMap_key_range :
    (∀ (source : List CChar) (k : Int),
      hashmapF.containsKey (buildFrequencyMap false source []) k = true →
        (0 ≤ k ∧ k ≤ 255) ∨ k = PSEUDO_EOF) ∧
    (∀ (source : List CChar) (k : Int),
      hashmapF.containsKey (buildFrequencyMap true source []) k = true →
        (-128 ≤ k ∧ k ≤ 127) ∨ k = PSEUDO_EOF) ∧
    hashmapF.containsKey (buildFrequencyMap true [200] []) (-56) = true ∧
    hashmapF.containsKey (buildFrequencyMap true [200] []) 200 = false := by
  refine ⟨?_, ?_, by decide, by decide⟩
  · intro source k hk
    unfold hashmapF.containsKey at hk
    rw [← mem_keys_iff, mem_keys_buildFrequencyMap] at hk
    rcases hk with hk | ⟨c, _, hc⟩
    · exact Or.inr hk
    · rw [← hc]
      exact Or.inl (charToInt_unsigned c)
  · intro source k hk
    unfold hashmapF.containsKey at hk
    rw [← mem_keys_iff, mem_keys_buildFrequencyMap] at hk
    rcases hk with hk | ⟨c, _, hc⟩
    · exact Or.inr hk
    · rw [← hc]
      exact Or.inl (charToInt_signed c)

/-- C18 (optimality): for every non-empty well-formed frequency table (no key
twice, no key equal to `NOT_A_CHAR`), the code table derived from the tree of
`buildEncodingTree` has the least total cost, the sum over the symbols of
count(symbol) * length(code(symbol)): it costs no more than the code table of
any full binary tree whose leaves carry the symbols of the table and, when no
count is negative, no more than any table of codes made of binary digits in
which no code of a symbol of the table is a prefix of the code of another. -/
theorem optimality (map : hashmapF) (hv : ValidTable map) (hne : map ≠ []) :
    ∃ t, buildEncodingTree map = some t ∧
      (∀ u, FullTree u → ((leaves u).map Prod.fst).Perm (hashmapF.keys map) →
        totalCost map (buildEncodingMap t) ≤ totalCost map (buildEncodingMap u)) ∧
      (∀ encodingMap : hashmapE,
        (∀ e ∈ map, 0 ≤ e.2) →
        (∀ k ∈ hashmapF.keys map, ∀ c ∈ hashmapE.subscript encodingMap k, c = '0' ∨ c = '1') →
        (∀ k1 ∈ hashmapF.keys map, ∀ k2 ∈ hashmapF.keys map, k1 ≠ k2 →
          ¬ hashmapE.subscript encodingMap k1 <+: hashmapE.subscript encodingMap k2) →
        totalCost map (buildEncodingMap t) ≤ totalCost map encodingMap) := by
  obtain ⟨t, ht, hloop, hb, hp⟩ := buildEncodingTree_mergeLoop map hv hne
  refine ⟨t, ht, ?_⟩
  have hheap := pushLeaves_heap map (hashmapF.keys map) [] isHeap_nil
  obtain ⟨hzero, hcounts⟩ := initial_queue_costs map hv
  have hw : ∀ e ∈ leaves t, hashmapF.get map e.1 = e.2 := by
    intro e he
    obtain ⟨k, c⟩ := e
    have := lookup_of_mem map hv.1 k c (hp.subset he)
    simp [hashmapF.get, this]
  have hcost : totalCost map (buildEncodingMap t) = icost t := by
    rw [totalCost_eq_pcost map t (hp.map Prod.fst) hv.1,
      pcost_profile_built (hashmapF.get map) t hb hw 0]
    simp
  have hbound : ∀ (p : List (Int × Nat)), IsProfile 0 (p.map Prod.snd) →
      (p.map Prod.fst).Perm ((hashmapF.keys map).map (hashmapF.get map)) →
      icost t ≤ pcost p := by
    intro p hprofile hweights
    have hlb := mergeLoop_lower_bound _ _ hheap (Nat.le_succ _) t hloop p hprofile
      (hweights.trans hcounts.symm)
    rw [hzero] at hlb
    simpa using hlb
  refine ⟨?_, ?_⟩
  · intro u hu hk
    rw [hcost, totalCost_eq_pcost map u hk hv.1]
    apply hbound _ (isProfile_profile (hashmapF.get map) u hu 0)
    rw [profile_weights]
    have h1 : (leaves u).map (fun e => hashmapF.get map e.1)
        = ((leaves u).map Prod.fst).map (hashmapF.get map) := by
      rw [List.map_map]
      rfl
    rw [h1]
    exact hk.map _
  · intro encodingMap hpos hbin hpf
    obtain ⟨p, hp1, hp2, hp3⟩ := prefixFree_lower_bound map hv hne encodingMap hpos hbin hpf
    rw [hcost]
    exact (hbound p hp1 hp2).trans hp3

theorem optimality_witness :
    ∃ t, buildEncodingTree [(97, 3), (98, 2), (99, 1), (256, 1)] = some t ∧
      (∀ u, FullTree u →
        ((leaves u).map Prod.fst).Perm (hashmapF.keys [(97, 3), (98, 2), (99, 1), (256, 1)]) →
        totalCost [(97, 3), (98, 2), (99, 1), (256, 1)] (buildEncodingMap t)
          ≤ totalCost [(97, 3), (98, 2), (99, 1), (256, 1)] (buildEncodingMap u)) ∧
      (∀ encodingMap : hashmapE,
        (∀ e ∈ ([(97, 3), (98, 2), (99, 1), (256, 1)] : hashmapF), 0 ≤ e.2) →
        (∀ k ∈ hashmapF.keys [(97, 3), (98, 2), (99, 1), (256, 1)],
          ∀ c ∈ hashmapE.subscript encodingMap k, c = '0' ∨ c = '1') →
        (∀ k1 ∈ hashmapF.keys [(97, 3), (98, 2), (99, 1), (256, 1)],
          ∀ k2 ∈ hashmapF.keys [(97, 3), (98, 2), (99, 1), (256, 1)], k1 ≠ k2 →
          ¬ hashmapE.subscript encodingMap k1 <+: hashmapE.subscript encodingMap k2) →
        totalCost [(97, 3), (98, 2), (99, 1), (256, 1)] (buildEncodingMap t)
          ≤ totalCost [(97, 3), (98, 2), (99, 1), (256, 1)] encodingMap) :=
  optimality [(97, 3), (98, 2), (99, 1), (256, 1)] (by decide) (by decide)

/-- C19 (decoder safety): for a tree built from a well-formed frequency table
(no key twice, no key equal to `NOT_A_CHAR`) with at least two entries and for
every sequence of values in the bit stream, `decode` never dereferences a null
pointer, and whenever it moves to the zero or the one child the node it moves
from is an internal node with both children present. -/
theorem decoder_safety (map : hashmapF) (hv : ValidTable map) (h2 : 2 ≤ map.length)
    (input : ifbitstream) :
    ∃ t, buildEncodingTree map = some t ∧ (decode input t).isSome = true ∧
      MovesFromInternal t input t := by
  have hne : map ≠ [] := by
    intro h0
    subst h0
    simp at h2
  obtain ⟨t, ht, hb, hp⟩ := buildEncodingTree_spec map hv hne
  have hl2 : 2 ≤ (leaves t).length := by
    rw [hp.length_eq]
    exact h2
  obtain ⟨count, zero, one, hroot⟩ := hb.internal_of_two_leaves hl2
  exact ⟨t, ht, decodeLoop_safe t hb count zero one hroot input t hb [] [],
    movesFromInternal_of_built t hb count zero one hroot input t hb⟩

theorem decoder_safety_witness :
    ∃ t, buildEncodingTree [(97, 3), (98, 2), (99, 1), (256, 1)] = some t ∧
      (decode [1, 1, 0, 0, 1, 0, 1, 0, 0, 1] t).isSome = true ∧
      MovesFromInternal t [1, 1, 0, 0, 1, 0, 1, 0, 0, 1] t :=
  decoder_safety [(97, 3), (98, 2), (99, 1), (256, 1)] (by decide) (by decide)
    [1, 1, 0, 0, 1, 0, 1, 0, 0, 1]

/-- C20 (encoded length): for every source, with the code table derived from its
frequency table (keys in any order), the bit count `encode` stores in `size` is
the sum over the keys of the table of count(key) * length(code(key)), the term
of `PSEUDO_EOF` included. -/
theorem encoded_length (sgn : Bool) (source : List CChar) (map : hashmapF)
    (hmap : map.Perm (buildFrequencyMap sgn source [])) (makeFile : Bool) :
    ∃ t, buildEncodingTree map = some t ∧
      (encode sgn source (buildEncodingMap t) makeFile).size
        = ((hashmapF.keys map).map (fun k =>
            hashmapF.get map k * ((hashmapE.subscript (buildEncodingMap t) k).length : Int))).sum := by
  have hv : ValidTable map := ValidTable.of_perm hmap (buildFrequencyMap_valid sgn source)
  have hne : map ≠ [] := by
    intro h0
    subst h0
    have h1 := (mem_keys_buildFrequencyMap sgn source PSEUDO_EOF).mpr (Or.inl rfl)
    rw [hmap.symm.eq_nil] at h1
    cases h1
  obtain ⟨t, ht, _, _⟩ := buildEncodingTree_spec map hv hne
  refine ⟨t, ht, ?_⟩
  rw [encode_size,
    sum_keys_get (fun k => ((hashmapE.subscript (buildEncodingMap t) k).length : Int)) map hv.1,
    (hmap.map (fun e => e.2 * ((hashmapE.subscript (buildEncodingMap t) e.1).length : Int))).sum_eq,
    sum_buildFrequencyMap (fun k => ((hashmapE.subscript (buildEncodingMap t) k).length : Int))]

theorem encoded_length_witness :
    ∃ t, buildEncodingTree [(256, 1), (99, 1), (98, 2), (97, 3)] = some t ∧
      (encode true [97, 97, 97, 98, 98, 99] (buildEncodingMap t) true).size
        = ((hashmapF.keys [(256, 1), (99, 1), (98, 2), (97, 3)]).map (fun k =>
            hashmapF.get [(256, 1), (99, 1), (98, 2), (97, 3)] k
              * ((hashmapE.subscript (buildEncodingMap t) k).length : Int))).sum :=
  encoded_length true [97, 97, 97, 98, 98, 99] [(256, 1), (99, 1), (98, 2), (97, 3)] (by decide) true

end Util
